import Mathlib

/-!
# LimboAI: blackboard plans and the await-animation action

A shallow embedding of `blackboard/blackboard_plan.cpp` and of the task
`bt/actions/bt_await_animation.cpp`.

A `BBVariable` is a handle on a shared, reference-counted data record, so the
copy stored in `var_list` and the copy stored in `var_map` designate the same
record, and a write through one is seen through the other.  The embedding
therefore keeps the records in an explicit store (`World.vars`) and represents
a `BBVariable` by the address of its record.  Plans are objects too
(`World.plans`), because a derived plan reads its base through a reference.
Every method takes the state `w` and the identity `self` of the plan it is
called on, and returns the new state.  A method that leaves through an
`ERR_FAIL_*` macro returns the state with one more reported error; the
signals `notify_property_list_changed` and `emit_changed` are not represented.

The statements about a plan are made for states that represent a plan of the
data model: `WellFormed` (the list and the map describe the same variables,
with distinct non-empty names) and, for a derived plan, `DerivedFrom` (the
plan and its base are distinct objects and share no slot).

The store a plan is instantiated into (`Blackboard`) is a value handed to
`populate_blackboard` and returned by it; the node that resolves paths and the
animation players are collaborators outside the sources and appear as
arguments.
-/

namespace LimboAI

/-! ## Engine types used by the plan -/

/-- Modelled from the spec: Godot's `Variant`, the tagged union held by a variable
slot (engine type, declared outside the sources).  The payloads the plan code
inspects are kept; a value of any other type is `other type repr`.  Two
variants are equal (`==`, and `!=` is its negation) when they have the same
type and the same payload. -/
inductive Variant where
  | nil
  | bool (b : Bool)
  | int (i : Int)
  | string (s : String)
  | string_name (s : String)
  | node_path (s : String)
  | object (id : Nat)
  | other (type : Int) (repr : Nat)
deriving DecidableEq

/-- A `StringName` is an interned string; only its text matters here. -/
abbrev StringName := String

namespace Variant

/-- Modelled from the spec: `Variant::get_type`, the runtime type tag as the
integer of `Variant::Type` (NIL = 0, BOOL = 1, INT = 2, STRING = 4,
STRING_NAME = 21, NODE_PATH = 22, OBJECT = 24). -/
def get_type : Variant → Int
  | nil => 0
  | bool _ => 1
  | int _ => 2
  | string _ => 4
  | string_name _ => 21
  | node_path _ => 22
  | object _ => 24
  | other t _ => t

/-- Modelled from the spec: the conversion `Variant -> StringName`; a value that
is neither a `String` nor a `StringName` converts to the empty name. -/
def toStringName : Variant → StringName
  | string s => s
  | string_name s => s
  | _ => ""

/-- Modelled from the spec: the conversion `Variant -> String` for the payloads
kept by the model. -/
def toString : Variant → String
  | string s => s
  | string_name s => s
  | node_path s => s
  | _ => ""

/-- Modelled from the spec: the conversion `Variant -> int` for integer and boolean
payloads; every other payload kept by the model converts to 0. -/
def toInt : Variant → Int
  | int i => i
  | bool b => if b then 1 else 0
  | _ => 0

end Variant

/-- Modelled from the spec: the macro `VARIANT_DEFAULT(type)` of `limbo_compat.h`,
the default-constructed value of a type. -/
def VARIANT_DEFAULT (t : Int) : Variant :=
  if t = 0 then Variant.nil
  else if t = 1 then Variant.bool false
  else if t = 2 then Variant.int 0
  else if t = 4 then Variant.string ""
  else if t = 21 then Variant.string_name ""
  else if t = 22 then Variant.node_path ""
  else if t = 24 then Variant.object 0
  else Variant.other t 0

/-! ### Strings -/

/-- Modelled from the spec: `String::begins_with` for a non-empty literal prefix. -/
def begins_with (s pre : String) : Bool :=
  pre.data.isPrefixOf s.data

/-- The slices of a character sequence around a separator. -/
def slices (sep : Char) : List Char → List (List Char)
  | [] => [[]]
  | c :: cs =>
    if c = sep then [] :: slices sep cs
    else
      match slices sep cs with
      | [] => [[c]]
      | h :: t => (c :: h) :: t

/-- Modelled from the spec: `String::get_slicec(splitter, slice)`, the slice with
the given index, or the empty string when there is none. -/
def get_slicec (s : String) (sep : Char) (n : Nat) : String :=
  if s.data = [] then ""
  else String.mk ((slices sep s.data).getD n [])

/-- ASCII digit. -/
def is_digit (c : Char) : Bool := 48 ≤ c.toNat && c.toNat ≤ 57

/-- ASCII letter or underscore. -/
def is_letter (c : Char) : Bool :=
  (97 ≤ c.toNat && c.toNat ≤ 122) || (65 ≤ c.toNat && c.toNat ≤ 90) || c.toNat = 95

/-- Modelled from the spec: `String::is_valid_identifier` ("passes identifier
syntax"): non-empty, no leading digit, only letters, digits and underscores. -/
def is_valid_identifier (s : String) : Bool :=
  match s.data with
  | [] => false
  | c :: cs => !is_digit c && (c :: cs).all (fun x => is_digit x || is_letter x)

/-! ### Hash maps and linked lists -/

/-- Godot's `HashMap<StringName, V>` as an association list with one entry per
key. -/
abbrev HashMap (β : Type) := List (StringName × β)

namespace HashMap

/-- The method `HashMap::has`. -/
def has {β : Type} (m : HashMap β) (k : StringName) : Bool :=
  m.any (fun e => e.1 == k)

/-- The method `HashMap::getptr`: the value stored under a key, if any. -/
def find {β : Type} (m : HashMap β) (k : StringName) : Option β :=
  match m with
  | [] => none
  | e :: es => if e.1 = k then some e.2 else find es k

/-- The method `HashMap::insert`: overwrites the value of an existing key, otherwise adds
the pair. -/
def insert {β : Type} (m : HashMap β) (k : StringName) (v : β) : HashMap β :=
  match m with
  | [] => [(k, v)]
  | e :: es => if e.1 = k then (k, v) :: es else e :: insert es k v

/-- The method `HashMap::erase`. -/
def erase {β : Type} (m : HashMap β) (k : StringName) : HashMap β :=
  m.filter (fun e => e.1 != k)

/-- The method `HashMap::size`. -/
def size {β : Type} (m : HashMap β) : Nat := m.length

end HashMap

/-- Godot's `List::move_before(value, where)` on positions: the element at index
`value` is unlinked and relinked immediately before the element that stood at
index `where_`. -/
def move_before {α : Type} (l : List α) (value where_ : Nat) : List α :=
  match l[value]? with
  | none => l
  | some x =>
    let r := l.eraseIdx value
    let k := if value < where_ then where_ - 1 else where_
    r.take k ++ x :: r.drop k

/-! ## Variables -/

/-- Modelled from the spec: the data record behind a `BBVariable` (class declared
in `bb_variable.h`, outside the sources): the slot's value, declared type,
editing hint and the "has been overridden" flag.  The runtime binding of a
slot to an object property is not represented. -/
structure BBData where
  value : Variant
  type : Int
  hint : Int
  hint_string : String
  value_changed : Bool
deriving DecidableEq

/-- A `BBVariable` is the address of its data record. -/
abbrev BBVariable := Nat

/-- The plan object: the ordered list and the map of its variables, the alias
map, the reference to the base plan and the prefetch flag. -/
structure BlackboardPlan where
  var_list : List (StringName × BBVariable)
  var_map : HashMap BBVariable
  parent_scope_mapping : HashMap StringName
  base : Option Nat
  prefetch_nodepath_vars : Bool
deriving DecidableEq

/-- The objects the plan code works on: the data records of all variables
(`next` is the first address not yet allocated), the plans, the number of
errors reported through the `ERR_FAIL_*` macros, and whether a call has
dereferenced a null pointer. -/
structure World where
  vars : Nat → BBData
  next : Nat
  plans : Nat → BlackboardPlan
  errors : Nat
  crashed : Bool

namespace World

/-- Writes the data record at an address. -/
def setData (w : World) (r : BBVariable) (d : BBData) : World :=
  { w with vars := fun k => if k = r then d else w.vars k }

/-- Replaces the state of a plan object. -/
def setPlan (w : World) (self : Nat) (p : BlackboardPlan) : World :=
  { w with plans := fun k => if k = self then p else w.plans k }

/-- An `ERR_FAIL_*` macro fired: the error is reported. -/
def err (w : World) : World := { w with errors := w.errors + 1 }

/-- A null pointer was dereferenced. -/
def crash (w : World) : World := { w with crashed := true }

/-- Allocates a data record. -/
def alloc (w : World) (d : BBData) : World × BBVariable :=
  ({ w with vars := fun k => if k = w.next then d else w.vars k, next := w.next + 1 }, w.next)

end World

namespace BBVariable

/-- Modelled from the spec: the constructor `BBVariable()`: an untyped, empty slot
that is not marked overridden. -/
def default_data : BBData :=
  { value := Variant.nil, type := 0, hint := 0, hint_string := "", value_changed := false }

/-- Modelled from the spec: `BBVariable::set_value`: stores the value and marks the
slot as explicitly set. -/
def set_value (w : World) (v : BBVariable) (x : Variant) : World :=
  w.setData v { w.vars v with value := x, value_changed := true }

/-- Modelled from the spec: `BBVariable::reset_value_changed`. -/
def reset_value_changed (w : World) (v : BBVariable) : World :=
  w.setData v { w.vars v with value_changed := false }

/-- Modelled from the spec: `BBVariable::set_type`: sets the declared type and
resets the value to the default of that type. -/
def set_type (w : World) (v : BBVariable) (t : Int) : World :=
  w.setData v { w.vars v with type := t, value := VARIANT_DEFAULT t }

/-- Modelled from the spec: `BBVariable::set_hint`. -/
def set_hint (w : World) (v : BBVariable) (h : Int) : World :=
  w.setData v { w.vars v with hint := h }

/-- Modelled from the spec: `BBVariable::set_hint_string`. -/
def set_hint_string (w : World) (v : BBVariable) (s : String) : World :=
  w.setData v { w.vars v with hint_string := s }

/-- Modelled from the spec: `BBVariable::is_same_prop_info`: same declared type,
hint and hint string. -/
def is_same_prop_info (w : World) (v o : BBVariable) : Bool :=
  decide ((w.vars v).type = (w.vars o).type) && decide ((w.vars v).hint = (w.vars o).hint)
    && decide ((w.vars v).hint_string = (w.vars o).hint_string)

/-- Modelled from the spec: `BBVariable::copy_prop_info`: takes over the declared
type, hint and hint string of another slot. -/
def copy_prop_info (w : World) (v o : BBVariable) : World :=
  w.setData v { w.vars v with
    type := (w.vars o).type, hint := (w.vars o).hint, hint_string := (w.vars o).hint_string }

/-- Modelled from the spec: `BBVariable::duplicate`: a new slot ("duplicated, not
shared") with the same type, hint, hint string and value, not marked
overridden. -/
def duplicate (w : World) (v : BBVariable) : World × BBVariable :=
  w.alloc { (w.vars v) with value_changed := false }

/-- Modelled from the spec: `BBVariable::operator==`: the same slot, or slots that
agree on type, hint, value and hint string. -/
def eq (w : World) (a b : BBVariable) : Bool :=
  decide (a = b) ||
    (decide ((w.vars a).type = (w.vars b).type) && decide ((w.vars a).hint = (w.vars b).hint)
      && decide ((w.vars a).value = (w.vars b).value)
      && decide ((w.vars a).hint_string = (w.vars b).hint_string))

end BBVariable

/-- Equality of list entries, `Pair<StringName, BBVariable>::operator==`. -/
def pair_eq (w : World) (a b : StringName × BBVariable) : Bool :=
  decide (a.1 = b.1) && BBVariable.eq w a.2 b.2

/-- The call `List::find(value)` followed by `Element::set(new)`: the first element equal
to `value` is overwritten; `none` when there is no such element. -/
def find_set (w : World) (value new : StringName × BBVariable) :
    List (StringName × BBVariable) → Option (List (StringName × BBVariable))
  | [] => none
  | e :: es =>
    if pair_eq w e value then some (new :: es)
    else
      match find_set w value new es with
      | some r => some (e :: r)
      | none => none

/-- The forward search of the reordering loop: the first element with the given
name is unlinked; the result is that element and the remaining list. -/
def take_named (n : StringName) :
    List (StringName × BBVariable) →
      Option ((StringName × BBVariable) × List (StringName × BBVariable))
  | [] => none
  | f :: fs =>
    if f.1 = n then some (f, fs)
    else
      match take_named n fs with
      | some (x, r) => some (x, f :: r)
      | none => none

/-- The reordering loop of `sync_with_base_plan`: `E` walks the local list and `B`
the base list in step; when the names differ, the first later local element
`F` named like `B` is moved before `E` and the walk resumes after `F`, that
is at the old `E`. -/
def sync_order :
    List (StringName × BBVariable) → List (StringName × BBVariable) →
      List (StringName × BBVariable)
  | [], l => l
  | _ :: _, [] => []
  | b :: bs, e :: es =>
    if e.1 ≠ b.1 then
      match take_named b.1 es with
      | some (f, rest) => f :: sync_order bs (e :: rest)
      | none => e :: sync_order bs es
    else e :: sync_order bs es

namespace BlackboardPlan

/-- The method `BlackboardPlan::has_var` (declared inline in the header): `var_map.has`. -/
def has_var (w : World) (self : Nat) (p_name : StringName) : Bool :=
  HashMap.has (w.plans self).var_map p_name

/-- The access `var_map[p_name]` on a key that is present. -/
def var_of (w : World) (self : Nat) (p_name : StringName) : BBVariable :=
  (HashMap.find (w.plans self).var_map p_name).getD 0

/-- The method `BlackboardPlan::list_vars`. -/
def list_vars (w : World) (self : Nat) : List StringName :=
  (w.plans self).var_list.map Prod.fst

/-- The method `BlackboardPlan::is_valid_var_name`. -/
def is_valid_var_name (w : World) (self : Nat) (p_name : StringName) : Bool :=
  if begins_with p_name "resource_" then false
  else is_valid_identifier p_name && !HashMap.has (w.plans self).var_map p_name

/-- The method `BlackboardPlan::add_var`. -/
def add_var (w : World) (self : Nat) (p_name : StringName) (p_var : BBVariable) : World :=
  let p := w.plans self
  if p_name = "" then w.err
  else if HashMap.has p.var_map p_name then w.err
  else
    w.setPlan self { p with
      var_map := HashMap.insert p.var_map p_name p_var
      var_list := p.var_list ++ [(p_name, p_var)] }

/-- The method `BlackboardPlan::remove_var`. -/
def remove_var (w : World) (self : Nat) (p_name : StringName) : World :=
  let p := w.plans self
  if !HashMap.has p.var_map p_name then w.err
  else
    w.setPlan self { p with
      var_list := p.var_list.eraseP (fun e => pair_eq w e (p_name, var_of w self p_name))
      var_map := HashMap.erase p.var_map p_name }

/-- The method `BlackboardPlan::rename_var`. -/
def rename_var (w : World) (self : Nat) (p_name p_new_name : StringName) : World :=
  let p := w.plans self
  if p_name = p_new_name then w
  else if !is_valid_var_name w self p_new_name then w.err
  else if !HashMap.has p.var_map p_name then w.err
  else if HashMap.has p.var_map p_new_name then w.err
  else
    let var := var_of w self p_name
    match find_set w (p_name, var) (p_new_name, var) p.var_list with
    | none => w.crash
    | some l =>
      let m := HashMap.insert (HashMap.erase p.var_map p_name) p_new_name var
      let a :=
        match HashMap.find p.parent_scope_mapping p_name with
        | some t => HashMap.erase (HashMap.insert p.parent_scope_mapping p_new_name t) p_name
        | none => p.parent_scope_mapping
      w.setPlan self { p with var_list := l, var_map := m, parent_scope_mapping := a }

/-- The method `BlackboardPlan::move_var`.  `E` is the element at `p_index` and `E2` the one
at `p_new_index`; after `move_before(E, E2)` with `p_index < p_new_index`, `E`
stands at `p_new_index - 1` and `E2` still at `p_new_index`. -/
def move_var (w : World) (self : Nat) (p_index p_new_index : Int) : World :=
  let p := w.plans self
  let n : Int := HashMap.size p.var_map
  if p_index < 0 ∨ p_index ≥ n then w.err
  else if p_new_index < 0 ∨ p_new_index ≥ n then w.err
  else if p_index = p_new_index then w
  else if p.var_list.length ≤ p_index.toNat ∨ p.var_list.length ≤ p_new_index.toNat then w.crash
  else
    let l1 := move_before p.var_list p_index.toNat p_new_index.toNat
    let l2 :=
      if p_new_index > p_index then move_before l1 p_new_index.toNat (p_new_index.toNat - 1)
      else l1
    w.setPlan self { p with var_list := l2 }

/-- One iteration of the first loop of `sync_with_base_plan`, for the base entry
`(base_name, base_var)`. -/
def sync_var (self : Nat) (w : World) (p : StringName × BBVariable) : World :=
  let base_name := p.1
  let base_var := p.2
  if !HashMap.has (w.plans self).var_map base_name then
    let r := BBVariable.duplicate w base_var
    add_var r.1 self base_name r.2
  else
    let var := var_of w self base_name
    let w1 :=
      if !BBVariable.is_same_prop_info w var base_var then BBVariable.copy_prop_info w var base_var
      else w
    if (!(w1.vars var).value_changed && decide ((w1.vars var).value ≠ (w1.vars base_var).value))
        || decide ((w1.vars var).value.get_type ≠ (w1.vars base_var).type) then
      BBVariable.reset_value_changed (BBVariable.set_value w1 var (w1.vars base_var).value) var
    else w1

/-- The names collected in `erase_list`: those of the local list that the base
does not have. -/
def erase_list (w : World) (self b : Nat) : List StringName :=
  ((w.plans self).var_list.filter (fun e => !has_var w b e.1)).map Prod.fst

/-- The method `BlackboardPlan::sync_with_base_plan`.  The base is never the plan itself
(`set_base_plan` refuses it), so the base list is not modified while it is
traversed. -/
def sync_with_base_plan (w : World) (self : Nat) : World :=
  match (w.plans self).base with
  | none => w
  | some b =>
    let w1 := (w.plans b).var_list.foldl (sync_var self) w
    let w2 := (erase_list w1 self b).foldl (fun s n => remove_var s self n) w1
    if (w2.plans b).var_list.length ≠ (w2.plans self).var_list.length then w2.err
    else
      w2.setPlan self { w2.plans self with
        var_list := sync_order (w2.plans b).var_list (w2.plans self).var_list }

/-- The access `var_map[name]` on a non-const map: a missing key is inserted with a
default-constructed variable. -/
def var_map_index (w : World) (self : Nat) (name : StringName) : World × BBVariable :=
  match HashMap.find (w.plans self).var_map name with
  | some v => (w, v)
  | none =>
    let r := w.alloc BBVariable.default_data
    (r.1.setPlan self { r.1.plans self with
      var_map := HashMap.insert (r.1.plans self).var_map name r.2 }, r.2)

/-- The expression `base->get_var(p_name).get_value()`: the value of the base's variable; when
the base has no such variable, `get_var` reports an error and returns a
default-constructed variable. -/
def base_value (w : World) (b : Nat) (p_name : StringName) : World × Variant :=
  if HashMap.has (w.plans b).var_map p_name then (w, (w.vars (var_of w b p_name)).value)
  else (w.err, Variant.nil)

/-- The method `BlackboardPlan::_set`: the set-by-path operation; the result is the returned
flag and the new state. -/
def _set (w : World) (self : Nat) (p_name : StringName) (p_value : Variant) : Bool × World :=
  let p := w.plans self
  if HashMap.has p.var_map p_name then
    let var := var_of w self p_name
    let w1 := BBVariable.set_value w var p_value
    match p.base with
    | none => (true, w1)
    | some b =>
      let r := base_value w1 b p_name
      if p_value = r.2 then (true, BBVariable.reset_value_changed r.1 var) else (true, r.1)
  else if begins_with p_name "mapping/" then
    let mapped_var_name := get_slicec p_name '/' 1
    let value := p_value.toStringName
    if value = "" then
      if HashMap.has p.parent_scope_mapping mapped_var_name then
        (true, w.setPlan self { p with
          parent_scope_mapping := HashMap.erase p.parent_scope_mapping mapped_var_name })
      else (true, w)
    else
      (true, w.setPlan self { p with
        parent_scope_mapping := HashMap.insert p.parent_scope_mapping mapped_var_name value })
  else if begins_with p_name "var/" then
    let var_name := get_slicec p_name '/' 1
    let what := get_slicec p_name '/' 2
    let w1 :=
      if !HashMap.has p.var_map var_name && what = "name" then
        let r := w.alloc BBVariable.default_data
        add_var r.1 self var_name r.2
      else w
    if what = "name" then (true, w1)
    else if what = "type" then
      let r := var_map_index w1 self var_name
      (true, BBVariable.set_type r.1 r.2 p_value.toInt)
    else if what = "value" then
      let r := var_map_index w1 self var_name
      (true, BBVariable.set_value r.1 r.2 p_value)
    else if what = "hint" then
      let r := var_map_index w1 self var_name
      (true, BBVariable.set_hint r.1 r.2 p_value.toInt)
    else if what = "hint_string" then
      let r := var_map_index w1 self var_name
      (true, BBVariable.set_hint_string r.1 r.2 p_value.toString)
    else (false, w1)
  else (false, w)

end BlackboardPlan

/-! ## Predicates used in the statements -/

/-- The representation invariant of a plan: the names of `var_list` are pairwise
distinct and non-empty, `var_map` has one entry per key, and the list and the
map hold the same (name, variable) entries. -/
def WellFormed (p : BlackboardPlan) : Prop :=
  (p.var_list.map Prod.fst).Nodup ∧ (p.var_map.map Prod.fst).Nodup ∧
    (∀ e ∈ p.var_list, e.1 ≠ "") ∧ (∀ e ∈ p.var_list, e ∈ p.var_map) ∧
    (∀ e ∈ p.var_map, e ∈ p.var_list)

/-- The variables of the plan `self` are allocated slots of their own: no slot is
held under two names, and none is shared with the plan `b`, whose slots are
allocated too. -/
def OwnSlots (w : World) (self b : Nat) : Prop :=
  ((w.plans self).var_list.map Prod.snd).Nodup ∧
    (∀ e ∈ (w.plans self).var_list, e.2 < w.next) ∧
    (∀ f ∈ (w.plans b).var_list, f.2 < w.next) ∧
    (∀ e ∈ (w.plans self).var_list, ∀ f ∈ (w.plans b).var_list, e.2 ≠ f.2)

/-- The plan `self` is derived from the plan `b`: `b` is its base and another
object, both satisfy the representation invariant, and `self` owns its slots. -/
def DerivedFrom (w : World) (self b : Nat) : Prop :=
  (w.plans self).base = some b ∧ self ≠ b ∧ WellFormed (w.plans self) ∧
    WellFormed (w.plans b) ∧ OwnSlots w self b

/-- What one iteration of the first loop of `sync_with_base_plan` makes of a
local record `d` facing the base record `bd`. -/
def sync_data (d bd : BBData) : BBData :=
  let d1 : BBData :=
    if d.type = bd.type ∧ d.hint = bd.hint ∧ d.hint_string = bd.hint_string then d
    else { d with type := bd.type, hint := bd.hint, hint_string := bd.hint_string }
  if (d1.value_changed = false ∧ d1.value ≠ bd.value) ∨ d1.value.get_type ≠ bd.type then
    { d1 with value := bd.value, value_changed := false }
  else d1

/-- A local slot agrees with the base slot: same type, hint and hint string; a
slot that is not marked value-changed holds the base value, and one that is
marked holds a value of the declared type. -/
def Agrees (w : World) (v bv : BBVariable) : Prop :=
  (w.vars v).type = (w.vars bv).type ∧ (w.vars v).hint = (w.vars bv).hint ∧
    (w.vars v).hint_string = (w.vars bv).hint_string ∧
    ((w.vars v).value_changed = false → (w.vars v).value = (w.vars bv).value) ∧
    ((w.vars v).value_changed = true → (w.vars v).value.get_type = (w.vars bv).type)

/-- The invariant of the first loop of `sync_with_base_plan`, started in the
state `w` for the plan `this` with base `b`: the state `s` reached after the
base entries `pre` have been processed. -/
structure SyncInv (w : World) (this b : Nat) (pre : List (StringName × BBVariable))
    (s : World) : Prop where
  others : ∀ k, k ≠ this → s.plans k = w.plans k
  base_eq : (s.plans this).base = (w.plans this).base
  mapping_eq : (s.plans this).parent_scope_mapping = (w.plans this).parent_scope_mapping
  prefetch_eq : (s.plans this).prefetch_nodepath_vars = (w.plans this).prefetch_nodepath_vars
  errors_eq : s.errors = w.errors
  crashed_eq : s.crashed = w.crashed
  wf : WellFormed (s.plans this)
  own : OwnSlots s this b
  next_le : w.next ≤ s.next
  added : ∃ added, (s.plans this).var_list = (w.plans this).var_list ++ added ∧
    ∀ a ∈ added, w.next ≤ a.2 ∧
      ∃ f ∈ pre, f.1 = a.1 ∧ s.vars a.2 = { w.vars f.2 with value_changed := false }
  synced : ∀ e ∈ (w.plans this).var_list, ∀ f ∈ pre, f.1 = e.1 →
    s.vars e.2 = sync_data (w.vars e.2) (w.vars f.2)
  pending : ∀ e ∈ (w.plans this).var_list, e.1 ∉ pre.map Prod.fst → s.vars e.2 = w.vars e.2
  frame : ∀ k, k < w.next → (∀ e ∈ (w.plans this).var_list, e.2 ≠ k) → s.vars k = w.vars k
  present : ∀ f ∈ pre, HashMap.has (s.plans this).var_map f.1 = true

/-- The plan `self` is reconciled with its base `b`: it lists the names of the base
in the base's order, and each of its slots agrees with the base slot of the
same name. -/
def Synced (w : World) (self b : Nat) : Prop :=
  (w.plans self).base = some b ∧ WellFormed (w.plans self) ∧ WellFormed (w.plans b) ∧
    (w.plans self).var_list.map Prod.fst = (w.plans b).var_list.map Prod.fst ∧
    ∀ e ∈ (w.plans self).var_list, ∀ f ∈ (w.plans b).var_list, e.1 = f.1 → Agrees w e.2 f.2

instance (p : BlackboardPlan) : Decidable (WellFormed p) := by
  unfold WellFormed; infer_instance

instance (w : World) (self b : Nat) : Decidable (OwnSlots w self b) := by
  unfold OwnSlots; infer_instance

instance (w : World) (self b : Nat) : Decidable (DerivedFrom w self b) := by
  unfold DerivedFrom; infer_instance

/-! ## Example states -/

/-- A plan without variables, aliases or base. -/
def empty_plan : BlackboardPlan :=
  { var_list := [], var_map := [], parent_scope_mapping := [], base := none,
    prefetch_nodepath_vars := false }

/-- The example of the specification: plan 1 declares `health : int = 100`, and
plan 0 is derived from it and declares nothing yet. -/
def health_world : World :=
  { vars := fun k =>
      if k = 0 then
        { value := Variant.int 100, type := 2, hint := 0, hint_string := "",
          value_changed := false }
      else BBVariable.default_data
    next := 1
    plans := fun k =>
      if k = 1 then { empty_plan with var_list := [("health", 0)], var_map := [("health", 0)] }
      else if k = 0 then { empty_plan with base := some 1 }
      else empty_plan
    errors := 0
    crashed := false }

/-- A derived plan out of step with its base.  The base (plan 1) declares
`health : int = 100`, `name : string = "bob"` and `speed : int = 3`; the
derived plan (plan 0) lists an overridden `speed = 7` first, then a variable
`extra` the base does not have, then a `health` with a stale type and value,
and has `speed` aliased to `velocity`. -/
def stale_world : World :=
  { vars := fun k =>
      if k = 0 then
        { value := Variant.int 100, type := 2, hint := 0, hint_string := "",
          value_changed := false }
      else if k = 1 then
        { value := Variant.string "bob", type := 4, hint := 0, hint_string := "",
          value_changed := false }
      else if k = 2 then
        { value := Variant.int 3, type := 2, hint := 1, hint_string := "0,10",
          value_changed := false }
      else if k = 3 then
        { value := Variant.int 7, type := 2, hint := 0, hint_string := "",
          value_changed := true }
      else if k = 5 then
        { value := Variant.string "50", type := 4, hint := 0, hint_string := "",
          value_changed := false }
      else BBVariable.default_data
    next := 6
    plans := fun k =>
      if k = 1 then
        { empty_plan with
          var_list := [("health", 0), ("name", 1), ("speed", 2)]
          var_map := [("health", 0), ("name", 1), ("speed", 2)] }
      else if k = 0 then
        { empty_plan with
          var_list := [("speed", 3), ("extra", 4), ("health", 5)]
          var_map := [("speed", 3), ("extra", 4), ("health", 5)]
          parent_scope_mapping := [("speed", "velocity")]
          base := some 1 }
      else empty_plan
    errors := 0
    crashed := false }

/-! ## Base plan, property list -/

namespace BlackboardPlan

/-- The method `BlackboardPlan::is_derived` (declared inline in the header):
`base.is_valid()`. -/
def is_derived (w : World) (self : Nat) : Bool :=
  (w.plans self).base.isSome

/-- The method `BlackboardPlan::set_base_plan`; `p_base` is `none` for a null
reference.  The warning printed when a plan is given itself as base is not
represented. -/
def set_base_plan (w : World) (self : Nat) (p_base : Option Nat) : World :=
  let w1 :=
    if p_base = some self then w.setPlan self { w.plans self with base := none }
    else w.setPlan self { w.plans self with base := p_base }
  sync_with_base_plan w1 self

end BlackboardPlan

/-- Modelled from the spec: one level of a Scope Store: the slots of its variables
and its links, which redirect a local name to a name of the enclosing
scope. -/
structure Scope where
  slots : HashMap BBVariable
  links : HashMap StringName
deriving DecidableEq

/-- Modelled from the spec: the Scope Store (class `Blackboard`, declared in
`blackboard.h`, outside the sources): its own slots and links and the chain
of enclosing scopes, parent first; the chain is empty when the parent is
null. -/
structure Blackboard where
  slots : HashMap BBVariable
  links : HashMap StringName
  ancestors : List Scope
deriving DecidableEq

/-- Modelled from the spec: resolution of a name along a chain of scopes: a link is
followed into the enclosing scope, otherwise the name is looked up in the
slots, otherwise in the enclosing scope. -/
def resolves : List Scope → StringName → Bool
  | [], _ => false
  | s :: rest, n =>
    match HashMap.find s.links n with
    | some t => resolves rest t
    | none => HashMap.has s.slots n || resolves rest n

namespace Blackboard

/-- Modelled from the spec: the store created by `memnew(Blackboard)`. -/
def empty : Blackboard := { slots := [], links := [], ancestors := [] }

/-- Modelled from the spec: `has(name)`: "true if resolvable via links, local slots,
or any ancestor". -/
def has_var (bb : Blackboard) (n : StringName) : Bool :=
  resolves ({ slots := bb.slots, links := bb.links } :: bb.ancestors) n

/-- Modelled from the spec: `Blackboard::assign_var`: the store receives the slot
under the name, as an independent entry ("a name present in links has no
independent entry in slots"). -/
def assign_var (bb : Blackboard) (n : StringName) (v : BBVariable) : Blackboard :=
  { bb with slots := HashMap.insert bb.slots n v, links := HashMap.erase bb.links n }

/-- Modelled from the spec: `link(name, target_store, target_name)` with the parent
as target store: "establishes or replaces a link entry; does not validate
that target_name currently resolves", "instead of keeping an independent
slot". -/
def link_var (bb : Blackboard) (n target : StringName) : Blackboard :=
  { bb with links := HashMap.insert bb.links n target, slots := HashMap.erase bb.slots n }

/-- Modelled from the spec: `get_parent() == nullptr`. -/
def parent_is_null (bb : Blackboard) : Bool := bb.ancestors.isEmpty

/-- Modelled from the spec: `Blackboard::set_parent`; `none` is the null
reference. -/
def set_parent (bb : Blackboard) (p : Option Blackboard) : Blackboard :=
  match p with
  | none => { bb with ancestors := [] }
  | some q => { bb with ancestors := { slots := q.slots, links := q.links } :: q.ancestors }

end Blackboard

/-- Modelled from the spec: the reference resolution collaborator, a scene node
asked through `get_node_or_null` to resolve a stored path: it answers with a
live object or with a failure. -/
abbrev Node := Variant → Option Nat

/-- The function `bb_add_var_dup_with_prefetch`; `p_node` is `none` for a null
pointer. -/
def bb_add_var_dup_with_prefetch (w : World) (bb : Blackboard) (p_name : StringName)
    (p_var : BBVariable) (p_prefetch : Bool) (p_node : Option Node) : World × Blackboard :=
  if p_prefetch && decide ((w.vars p_var).type = 22) then
    match p_node with
    | none => (w.crash, bb)
    | some node =>
      let n := node (w.vars p_var).value
      let r := BBVariable.duplicate w p_var
      match n with
      | some obj =>
        (BBVariable.set_value r.1 r.2 (Variant.object obj), bb.assign_var p_name r.2)
      | none =>
        if bb.has_var p_name then (r.1, bb)
        else (BBVariable.set_value r.1.err r.2 Variant.nil, bb.assign_var p_name r.2)
  else
    let r := BBVariable.duplicate w p_var
    (r.1, bb.assign_var p_name r.2)

namespace BlackboardPlan

/-- The body of the loop of `populate_blackboard` past the overwrite test, for the
plan entry `p`: the variable is added, then linked when it has an alias. -/
def process_var (self : Nat) (p_node : Option Node) (s : World × Blackboard)
    (p : StringName × BBVariable) : World × Blackboard :=
  let r := bb_add_var_dup_with_prefetch s.1 s.2 p.1 p.2
    (s.1.plans self).prefetch_nodepath_vars p_node
  match HashMap.find (r.1.plans self).parent_scope_mapping p.1 with
  | none => r
  | some target_var =>
    if target_var ≠ "" then
      if r.2.parent_is_null then (r.1.err, r.2)
      else (r.1, r.2.link_var p.1 target_var)
    else r

/-- One iteration of the loop of `populate_blackboard`, for the plan entry `p`. -/
def populate_var (self : Nat) (overwrite : Bool) (p_node : Option Node)
    (s : World × Blackboard) (p : StringName × BBVariable) : World × Blackboard :=
  if s.2.has_var p.1 && !overwrite then s
  else process_var self p_node s p

/-- The method `BlackboardPlan::populate_blackboard`. -/
def populate_blackboard (w : World) (self : Nat) (p_blackboard : Blackboard) (overwrite : Bool)
    (p_node : Option Node) : World × Blackboard :=
  if p_node.isNone && (w.plans self).prefetch_nodepath_vars then (w.err, p_blackboard)
  else (w.plans self).var_list.foldl (populate_var self overwrite p_node) (w, p_blackboard)

/-- The method `BlackboardPlan::create_blackboard`. -/
def create_blackboard (w : World) (self : Nat) (p_node : Option Node)
    (p_parent_scope : Option Blackboard) : World × Blackboard :=
  if p_node.isNone && (w.plans self).prefetch_nodepath_vars then (w.err, Blackboard.empty)
  else populate_blackboard w self (Blackboard.empty.set_parent p_parent_scope) true p_node

end BlackboardPlan

/-! ## The action `BTAwaitAnimation` -/

/-- The status of a task, the enumeration `BT::Status`. -/
inductive Status where
  | FRESH
  | RUNNING
  | FAILURE
  | SUCCESS
deriving DecidableEq

/-- Modelled from the spec: what the task reads of Godot's `AnimationPlayer`, the
external process it waits for: the animations it has, whether it is playing,
and the animation assigned to it. -/
structure AnimationPlayer where
  animations : List StringName
  playing : Bool
  assigned_animation : StringName

/-- The fields of a `BTAwaitAnimation`.  The parameter `animation_player_param` is
`none` when null; otherwise it carries what
`Object::cast_to<AnimationPlayer>(param->get_value(agent, blackboard))` yields
for the task's agent and blackboard: a player, or `none` for a null result.
Times are doubles in the source; the task only compares them, and they are
rationals here. -/
structure BTAwaitAnimation where
  animation_player_param : Option (Option Nat)
  animation_name : StringName
  max_time : ℚ
  animation_player : Option Nat
  setup_failed : Bool

/-- What a call of `_tick` produces: the returned status, and whether an error or a
warning was printed. -/
structure TickOutcome where
  status : Status
  error : Bool
  warning : Bool
deriving DecidableEq

namespace BTAwaitAnimation

/-- The method `BTAwaitAnimation::_setup`; `players` gives the state of the
animation players at the time of the call.  The result is the task and
whether an error was printed. -/
def _setup (t : BTAwaitAnimation) (players : Nat → AnimationPlayer) : BTAwaitAnimation × Bool :=
  let t1 := { t with setup_failed := true }
  match t.animation_player_param with
  | none => (t1, true)
  | some r =>
    let t2 := { t1 with animation_player := r }
    match r with
    | none => (t2, true)
    | some pl =>
      if t.animation_name = "" then (t2, true)
      else if !(players pl).animations.contains t.animation_name then (t2, true)
      else ({ t2 with setup_failed := false }, false)

/-- The method `BTAwaitAnimation::_tick`; `players` gives the state of the
animation players at the time of the call and `elapsed` is what
`get_elapsed_time()` returns.  The result is `none` when the call
dereferences a null `animation_player`. -/
def _tick (t : BTAwaitAnimation) (players : Nat → AnimationPlayer) (elapsed : ℚ) :
    Option TickOutcome :=
  if t.setup_failed = true then
    some { status := Status.FAILURE, error := true, warning := false }
  else
    match t.animation_player with
    | none => none
    | some pl =>
      if (players pl).playing && decide ((players pl).assigned_animation = t.animation_name) then
        if elapsed < t.max_time then
          some { status := Status.RUNNING, error := false, warning := false }
        else if t.max_time > 0 then
          some { status := Status.SUCCESS, error := false, warning := true }
        else some { status := Status.SUCCESS, error := false, warning := false }
      else some { status := Status.SUCCESS, error := false, warning := false }

end BTAwaitAnimation

/-- A task that awaits the animation `walk` of player 0 for at most 2 seconds. -/
def walk_task : BTAwaitAnimation :=
  { animation_player_param := some (some 0), animation_name := "walk", max_time := 2,
    animation_player := none, setup_failed := false }

/-- Player 0 has the animation `walk` and keeps playing it. -/
def walking_players : Nat → AnimationPlayer :=
  fun _ => { animations := ["idle", "walk"], playing := true, assigned_animation := "walk" }

/-- Player 0 has the animation `walk` and has stopped. -/
def stopped_players : Nat → AnimationPlayer :=
  fun _ => { animations := ["idle", "walk"], playing := false, assigned_animation := "walk" }

/-- A plan to instantiate: plan 0 declares the node path `target = Enemy` and
`hp : int = 10`, aliases `hp` to `life`, and prefetches node paths. -/
def path_world : World :=
  { vars := fun k =>
      if k = 0 then
        { value := Variant.node_path "Enemy", type := 22, hint := 0, hint_string := "",
          value_changed := false }
      else if k = 1 then
        { value := Variant.int 10, type := 2, hint := 0, hint_string := "",
          value_changed := false }
      else BBVariable.default_data
    next := 2
    plans := fun k =>
      if k = 0 then
        { empty_plan with
          var_list := [("target", 0), ("hp", 1)]
          var_map := [("target", 0), ("hp", 1)]
          parent_scope_mapping := [("hp", "life")]
          prefetch_nodepath_vars := true }
      else empty_plan
    errors := 0
    crashed := false }

/-- A node that resolves the path `Enemy` to the object 7 and nothing else. -/
def enemy_node : Node :=
  fun v => if v = Variant.node_path "Enemy" then some 7 else none

/-- A node that resolves no path. -/
def lonely_node : Node := fun _ => none

/-- A store that already holds a variable `target` in slot 9 and has no parent. -/
def target_board : Blackboard := { slots := [("target", 9)], links := [], ancestors := [] }

/-- Two stores agree on a name: same parents, same slot and same link for the
name. -/
def Blackboard.SameAt (a b : Blackboard) (n : StringName) : Prop :=
  b.ancestors = a.ancestors ∧ HashMap.find b.slots n = HashMap.find a.slots n ∧
    HashMap.find b.links n = HashMap.find a.links n

/-! ## Further methods of the plan -/

namespace BlackboardPlan

/-- The state `sync_with_base_plan` reaches for the base `b` after its first two
loops (add what is missing, erase what the base lacks), that is, where the
count check is made. -/
def sync_add_erase (w : World) (self b : Nat) : World :=
  let w1 := (w.plans b).var_list.foldl (sync_var self) w
  (erase_list w1 self b).foldl (fun s n => remove_var s self n) w1

/-- The method `BlackboardPlan::get_var_by_index`: the index is checked against the
size of `var_map` and then used on `var_list`; `List::get` crashes on an
index outside the list. -/
def get_var_by_index (w : World) (self : Nat) (p_index : Int) :
    World × (StringName × BBVariable) :=
  let r := w.alloc BBVariable.default_data
  if p_index < 0 ∨ p_index ≥ (HashMap.size (w.plans self).var_map : Int) then
    (r.1.err, ("", r.2))
  else
    match (w.plans self).var_list[p_index.toNat]? with
    | some e => (r.1, e)
    | none => (r.1.crash, ("", r.2))

/-- The method `BlackboardPlan::is_prefetching_nodepath_vars`, which asks the base
of a derived plan.  The recursion follows the chain of bases; `fuel` bounds
its depth, and the result is `none` when the bound is reached. -/
def is_prefetching_nodepath_vars : Nat → World → Nat → Option Bool
  | 0, _, _ => none
  | fuel + 1, w, self =>
    match (w.plans self).base with
    | some b => is_prefetching_nodepath_vars fuel w b
    | none => some (w.plans self).prefetch_nodepath_vars

end BlackboardPlan

/-- Whether the reordering loop of `sync_with_base_plan` runs as intended: `B` is
never dereferenced past the end of the base list, and whenever the names of
`E` and `B` differ the forward search finds an element named like `B`. -/
def reorder_finds :
    List (StringName × BBVariable) → List (StringName × BBVariable) → Bool
  | _, [] => true
  | [], _ :: _ => false
  | b :: bs, e :: es =>
    if e.1 ≠ b.1 then
      match take_named b.1 es with
      | some (_, rest) => reorder_finds bs (e :: rest)
      | none => false
    else reorder_finds bs es

/-- A derived plan whose own prefetch flag differs from its base's: plan 1 declares
the node path `target = Enemy` and prefetches; plan 0 is derived from it,
reconciled with it, and has its own flag off. -/
def derived_path_world : World :=
  { vars := fun _ =>
      { value := Variant.node_path "Enemy", type := 22, hint := 0, hint_string := "",
        value_changed := false }
    next := 2
    plans := fun k =>
      if k = 1 then
        { empty_plan with
          var_list := [("target", 0)], var_map := [("target", 0)]
          prefetch_nodepath_vars := true }
      else if k = 0 then
        { empty_plan with
          var_list := [("target", 1)], var_map := [("target", 1)]
          base := some 1, prefetch_nodepath_vars := false }
      else empty_plan
    errors := 0
    crashed := false }

/-! ## What instantiation leaves in a store -/

namespace Blackboard

end Blackboard

namespace BlackboardPlan

end BlackboardPlan

/-! # Lemmas and theorems -/

open BlackboardPlan

/-! ## Basic facts about the containers -/

namespace HashMap

theorem has_eq_true_iff {β : Type} (m : HashMap β) (k : StringName) :
    has m k = true ↔ k ∈ m.map Prod.fst := by
  unfold has
  simp only [List.any_eq_true, List.mem_map, beq_iff_eq]

theorem has_eq_false_iff {β : Type} (m : HashMap β) (k : StringName) :
    has m k = false ↔ k ∉ m.map Prod.fst := by
  rw [← has_eq_true_iff]; simp

theorem has_of_mem {β : Type} {m : HashMap β} {k : StringName} {v : β} (h : (k, v) ∈ m) :
    has m k = true :=
  (has_eq_true_iff m k).2 (List.mem_map.2 ⟨(k, v), h, rfl⟩)

theorem find_of_mem {β : Type} {m : HashMap β} {k : StringName} {v : β}
    (hn : (m.map Prod.fst).Nodup) (h : (k, v) ∈ m) : find m k = some v := by
  induction m with
  | nil => cases h
  | cons e es ih =>
    rw [List.map_cons, List.nodup_cons] at hn
    rcases List.mem_cons.1 h with h | h
    · subst h; simp [find]
    · have hk : e.1 ≠ k := by
        intro hek
        exact hn.1 (hek ▸ List.mem_map.2 ⟨(k, v), h, rfl⟩)
      simp [find, hk, ih hn.2 h]

theorem insert_of_not_has {β : Type} {m : HashMap β} {k : StringName} (v : β)
    (h : has m k = false) : insert m k v = m ++ [(k, v)] := by
  induction m with
  | nil => rfl
  | cons e es ih =>
    simp only [has, List.any_cons, Bool.or_eq_false_iff, beq_eq_false_iff_ne, ne_eq] at h
    simp only [insert, h.1, if_false, List.cons_append]
    rw [ih h.2]

theorem mem_erase {β : Type} {m : HashMap β} {k : StringName} {e : StringName × β} :
    e ∈ erase m k ↔ e ∈ m ∧ e.1 ≠ k := by
  simp [erase]

theorem has_erase_self {β : Type} (m : HashMap β) (k : StringName) : has (erase m k) k = false := by
  rw [has_eq_false_iff]
  intro h
  obtain ⟨e, he, hk⟩ := List.mem_map.1 h
  exact (mem_erase.1 he).2 hk

end HashMap

namespace World

@[simp] theorem setPlan_plans_self (w : World) (self : Nat) (p : BlackboardPlan) :
    (w.setPlan self p).plans self = p := by simp [setPlan]

theorem setPlan_plans_other (w : World) {self k : Nat} (p : BlackboardPlan) (h : k ≠ self) :
    (w.setPlan self p).plans k = w.plans k := by simp [setPlan, h]

@[simp] theorem setPlan_vars (w : World) (self : Nat) (p : BlackboardPlan) :
    (w.setPlan self p).vars = w.vars := rfl

@[simp] theorem setPlan_next (w : World) (self : Nat) (p : BlackboardPlan) :
    (w.setPlan self p).next = w.next := rfl

@[simp] theorem setPlan_errors (w : World) (self : Nat) (p : BlackboardPlan) :
    (w.setPlan self p).errors = w.errors := rfl

@[simp] theorem setPlan_crashed (w : World) (self : Nat) (p : BlackboardPlan) :
    (w.setPlan self p).crashed = w.crashed := rfl

theorem setPlan_same (w : World) (self : Nat) : w.setPlan self (w.plans self) = w := by
  cases w with
  | mk vars next plans errors crashed =>
    simp only [setPlan, mk.injEq, and_true, true_and]
    funext k
    by_cases h : k = self
    · simp [h]
    · simp [h]

@[simp] theorem setData_vars_self (w : World) (r : BBVariable) (d : BBData) :
    (w.setData r d).vars r = d := by simp [setData]

theorem setData_vars_other (w : World) {r k : BBVariable} (d : BBData) (h : k ≠ r) :
    (w.setData r d).vars k = w.vars k := by simp [setData, h]

@[simp] theorem setData_plans (w : World) (r : BBVariable) (d : BBData) :
    (w.setData r d).plans = w.plans := rfl

@[simp] theorem setData_next (w : World) (r : BBVariable) (d : BBData) :
    (w.setData r d).next = w.next := rfl

@[simp] theorem setData_errors (w : World) (r : BBVariable) (d : BBData) :
    (w.setData r d).errors = w.errors := rfl

@[simp] theorem setData_crashed (w : World) (r : BBVariable) (d : BBData) :
    (w.setData r d).crashed = w.crashed := rfl

theorem setData_same (w : World) (r : BBVariable) : w.setData r (w.vars r) = w := by
  cases w with
  | mk vars next plans errors crashed =>
    simp only [setData, mk.injEq, and_true]
    funext k
    by_cases h : k = r
    · simp [h]
    · simp [h]

end World

theorem World.setData_setData (w : World) (r : BBVariable) (d d' : BBData) :
    (w.setData r d).setData r d' = w.setData r d' := by
  cases w with
  | mk vars next plans errors crashed =>
    simp only [World.setData, World.mk.injEq, and_true]
    funext k
    by_cases h : k = r
    · simp [h]
    · simp [h]

namespace BlackboardPlan

/-- One iteration of the first loop on a name the plan has: only the record of the
plan's variable of that name is written. -/
theorem sync_var_of_has (self : Nat) (w : World) (f : StringName × BBVariable)
    (h : HashMap.has (w.plans self).var_map f.1 = true) :
    sync_var self w f
      = w.setData (var_of w self f.1) (sync_data (w.vars (var_of w self f.1)) (w.vars f.2)) := by
  unfold sync_var
  simp only [h, Bool.not_true, Bool.false_eq_true, if_false]
  by_cases hs : BBVariable.is_same_prop_info w (var_of w self f.1) f.2 = true
  · have hs' := hs
    simp only [BBVariable.is_same_prop_info, Bool.and_eq_true, decide_eq_true_eq] at hs'
    have hd : (if (w.vars (var_of w self f.1)).type = (w.vars f.2).type ∧
          (w.vars (var_of w self f.1)).hint = (w.vars f.2).hint ∧
          (w.vars (var_of w self f.1)).hint_string = (w.vars f.2).hint_string
        then w.vars (var_of w self f.1)
        else { w.vars (var_of w self f.1) with
          type := (w.vars f.2).type, hint := (w.vars f.2).hint,
          hint_string := (w.vars f.2).hint_string }) = w.vars (var_of w self f.1) := by
      rw [if_pos ⟨hs'.1.1, hs'.1.2, hs'.2⟩]
    simp only [hs, Bool.not_true, Bool.false_eq_true, if_false, sync_data, hd]
    split
    · rename_i hc
      have hc' : ((w.vars (var_of w self f.1)).value_changed = false ∧
          (w.vars (var_of w self f.1)).value ≠ (w.vars f.2).value) ∨
          (w.vars (var_of w self f.1)).value.get_type ≠ (w.vars f.2).type := by
        simpa using hc
      rw [if_pos hc']
      simp [BBVariable.reset_value_changed, BBVariable.set_value, World.setData_setData]
    · rename_i hc
      have hc' : ¬ (((w.vars (var_of w self f.1)).value_changed = false ∧
          (w.vars (var_of w self f.1)).value ≠ (w.vars f.2).value) ∨
          (w.vars (var_of w self f.1)).value.get_type ≠ (w.vars f.2).type) := by
        simpa using hc
      rw [if_neg hc', World.setData_same]
  · have hne : f.2 ≠ var_of w self f.1 := by
      intro he
      apply hs
      rw [he]
      simp [BBVariable.is_same_prop_info]
    have hs' : ¬ ((w.vars (var_of w self f.1)).type = (w.vars f.2).type ∧
          (w.vars (var_of w self f.1)).hint = (w.vars f.2).hint ∧
          (w.vars (var_of w self f.1)).hint_string = (w.vars f.2).hint_string) := by
      intro hh
      apply hs
      simp [BBVariable.is_same_prop_info, hh.1, hh.2.1, hh.2.2]
    have hb : (BBVariable.copy_prop_info w (var_of w self f.1) f.2).vars f.2 = w.vars f.2 := by
      simp [BBVariable.copy_prop_info, World.setData_vars_other _ _ hne]
    have hv : (BBVariable.copy_prop_info w (var_of w self f.1) f.2).vars (var_of w self f.1)
        = { w.vars (var_of w self f.1) with
          type := (w.vars f.2).type, hint := (w.vars f.2).hint,
          hint_string := (w.vars f.2).hint_string } := by
      simp [BBVariable.copy_prop_info]
    simp only [hs, Bool.not_false, if_true, sync_data, if_neg hs', hb, hv]
    split
    · rename_i hc
      have hc' : ((w.vars (var_of w self f.1)).value_changed = false ∧
          (w.vars (var_of w self f.1)).value ≠ (w.vars f.2).value) ∨
          (w.vars (var_of w self f.1)).value.get_type ≠ (w.vars f.2).type := by
        simpa using hc
      rw [if_pos hc']
      simp [BBVariable.reset_value_changed, BBVariable.set_value, BBVariable.copy_prop_info,
        World.setData_setData]
    · rename_i hc
      have hc' : ¬ (((w.vars (var_of w self f.1)).value_changed = false ∧
          (w.vars (var_of w self f.1)).value ≠ (w.vars f.2).value) ∨
          (w.vars (var_of w self f.1)).value.get_type ≠ (w.vars f.2).type) := by
        simpa using hc
      rw [if_neg hc']
      simp [BBVariable.copy_prop_info]

/-- One iteration of the first loop on a name the plan lacks: a duplicate of the
base variable is allocated and appended to the list and to the map. -/
theorem sync_var_of_not_has (self : Nat) (w : World) (f : StringName × BBVariable)
    (h : HashMap.has (w.plans self).var_map f.1 = false) (hn : f.1 ≠ "") :
    sync_var self w f
      = (w.alloc { w.vars f.2 with value_changed := false }).1.setPlan self
          { w.plans self with
            var_map := (w.plans self).var_map ++ [(f.1, w.next)]
            var_list := (w.plans self).var_list ++ [(f.1, w.next)] } := by
  unfold sync_var
  simp only [h, Bool.not_false, if_true, BBVariable.duplicate, add_var, World.alloc, hn, if_false,
    Bool.false_eq_true, HashMap.insert_of_not_has _ h]

end BlackboardPlan

/-- A loop invariant over a left fold: it holds of the initial state with nothing
processed, and each iteration extends the processed prefix by one element. -/
theorem foldl_invariant {α σ : Type} (f : σ → α → σ) (I : List α → σ → Prop) (l : List α)
    (s0 : σ) (h0 : I [] s0)
    (hstep : ∀ pre x post s, l = pre ++ x :: post → I pre s → I (pre ++ [x]) (f s x)) :
    I l (l.foldl f s0) := by
  have key : ∀ (post pre : List α) (s : σ), l = pre ++ post → I pre s →
      I l (post.foldl f s) := by
    intro post
    induction post with
    | nil =>
      intro pre s hl hI
      rw [List.append_nil] at hl
      rw [hl]
      exact hI
    | cons x post ih =>
      intro pre s hl hI
      rw [List.foldl_cons]
      refine ih (pre ++ [x]) (f s x) ?_ (hstep pre x post s hl hI)
      rw [hl, List.append_assoc, List.singleton_append]
  exact key l [] s0 rfl h0

theorem sync_data_info (d bd : BBData) :
    (sync_data d bd).type = bd.type ∧ (sync_data d bd).hint = bd.hint ∧
      (sync_data d bd).hint_string = bd.hint_string := by
  unfold sync_data
  by_cases h1 : d.type = bd.type ∧ d.hint = bd.hint ∧ d.hint_string = bd.hint_string
  · simp only [if_pos h1]
    split <;> exact h1
  · simp only [if_neg h1]
    split <;> exact ⟨rfl, rfl, rfl⟩

theorem sync_data_value (d bd : BBData) :
    ((sync_data d bd).value_changed = false → (sync_data d bd).value = bd.value) ∧
      ((sync_data d bd).value_changed = true → (sync_data d bd).value.get_type = bd.type) := by
  unfold sync_data
  by_cases h1 : d.type = bd.type ∧ d.hint = bd.hint ∧ d.hint_string = bd.hint_string
  · simp only [if_pos h1]
    split
    · simp
    · rename_i hc
      rw [not_or] at hc
      refine ⟨fun h => ?_, fun _ => not_not.1 hc.2⟩
      by_contra hv
      exact hc.1 ⟨h, hv⟩
  · simp only [if_neg h1]
    split
    · simp
    · rename_i hc
      rw [not_or] at hc
      refine ⟨fun h => ?_, fun _ => not_not.1 hc.2⟩
      by_contra hv
      exact hc.1 ⟨h, hv⟩

/-- A record that already agrees with the base record is left as it is. -/
theorem sync_data_fixed (d bd : BBData)
    (hi : d.type = bd.type ∧ d.hint = bd.hint ∧ d.hint_string = bd.hint_string)
    (h1 : d.value_changed = false → d.value = bd.value)
    (h2 : d.value_changed = true → d.value.get_type = bd.type) : sync_data d bd = d := by
  unfold sync_data
  simp only [if_pos hi]
  split
  · rename_i hc
    cases hch : d.value_changed with
    | false =>
      have hv := h1 hch
      cases d
      simp_all
    | true =>
      exfalso
      rcases hc with hc | hc
      · rw [hch] at hc; exact Bool.noConfusion hc.1
      · exact hc (h2 hch)
  · rfl

/-- An overridden value of the declared type survives the iteration. -/
theorem sync_data_keeps (d bd : BBData) (hc : d.value_changed = true)
    (ht : d.value.get_type = bd.type) :
    (sync_data d bd).value = d.value ∧ (sync_data d bd).value_changed = true := by
  unfold sync_data
  by_cases h1 : d.type = bd.type ∧ d.hint = bd.hint ∧ d.hint_string = bd.hint_string
  · simp only [if_pos h1]
    rw [if_neg]
    · exact ⟨rfl, hc⟩
    · simp [hc, ht]
  · simp only [if_neg h1]
    rw [if_neg]
    · exact ⟨rfl, hc⟩
    · simp [hc, ht]

theorem HashMap.mem_of_has {m : HashMap BBVariable} {k : StringName} (h : HashMap.has m k = true) :
    (k, (HashMap.find m k).getD 0) ∈ m := by
  induction m with
  | nil => simp [HashMap.has] at h
  | cons e es ih =>
    by_cases hk : e.1 = k
    · simp only [HashMap.find, hk, if_true, Option.getD_some]
      rw [← hk]
      exact List.mem_cons_self _ _
    · simp only [HashMap.find, hk, if_false]
      refine List.mem_cons_of_mem _ (ih ?_)
      simpa [HashMap.has, hk] using h

/-- In a list with pairwise distinct names, a name determines its entry. -/
theorem entry_unique {α : Type} {l : List (StringName × α)} (hn : (l.map Prod.fst).Nodup)
    {e f : StringName × α} (he : e ∈ l) (hf : f ∈ l) (h : e.1 = f.1) : e = f :=
  List.inj_on_of_nodup_map hn he hf h

/-- In a list with pairwise distinct slots, a slot determines its entry. -/
theorem slot_unique {l : List (StringName × BBVariable)} (hn : (l.map Prod.snd).Nodup)
    {e f : StringName × BBVariable} (he : e ∈ l) (hf : f ∈ l) (h : e.2 = f.2) : e = f :=
  List.inj_on_of_nodup_map hn he hf h

theorem WellFormed.has_iff {p : BlackboardPlan} (h : WellFormed p) (n : StringName) :
    HashMap.has p.var_map n = true ↔ n ∈ p.var_list.map Prod.fst := by
  rw [HashMap.has_eq_true_iff]
  constructor
  · intro hn
    obtain ⟨e, he, rfl⟩ := List.mem_map.1 hn
    exact List.mem_map.2 ⟨e, h.2.2.2.2 e he, rfl⟩
  · intro hn
    obtain ⟨e, he, rfl⟩ := List.mem_map.1 hn
    exact List.mem_map.2 ⟨e, h.2.2.2.1 e he, rfl⟩

theorem WellFormed.var_of_mem {w : World} {self : Nat} (h : WellFormed (w.plans self))
    {e : StringName × BBVariable} (he : e ∈ (w.plans self).var_list) :
    var_of w self e.1 = e.2 := by
  unfold var_of
  rw [HashMap.find_of_mem h.2.1 (h.2.2.2.1 e he)]
  rfl

theorem WellFormed.mem_var_of {w : World} {self : Nat} (h : WellFormed (w.plans self))
    {n : StringName} (hn : HashMap.has (w.plans self).var_map n = true) :
    (n, var_of w self n) ∈ (w.plans self).var_list :=
  h.2.2.2.2 _ (HashMap.mem_of_has hn)

/-- Appending a fresh name with a slot keeps the representation invariant. -/
theorem WellFormed.append {p : BlackboardPlan} (h : WellFormed p) {n : StringName}
    (v : BBVariable) (hn : n ≠ "") (hnew : HashMap.has p.var_map n = false) :
    WellFormed { p with var_map := p.var_map ++ [(n, v)], var_list := p.var_list ++ [(n, v)] } := by
  have h1 : n ∉ p.var_map.map Prod.fst := (HashMap.has_eq_false_iff _ _).1 hnew
  have h2 : n ∉ p.var_list.map Prod.fst := by
    intro hc
    have := (h.has_iff n).2 hc
    rw [hnew] at this
    exact Bool.noConfusion this
  obtain ⟨a, b, c, d, e⟩ := h
  refine ⟨?_, ?_, ?_, ?_, ?_⟩
  · simp only [List.map_append, List.map_cons, List.map_nil]
    rw [List.nodup_append]
    refine ⟨a, List.nodup_singleton _, ?_⟩
    intro x hx hx'
    rw [List.mem_singleton] at hx'
    exact h2 (hx' ▸ hx)
  · simp only [List.map_append, List.map_cons, List.map_nil]
    rw [List.nodup_append]
    refine ⟨b, List.nodup_singleton _, ?_⟩
    intro x hx hx'
    rw [List.mem_singleton] at hx'
    exact h1 (hx' ▸ hx)
  · intro x hx
    rcases List.mem_append.1 hx with hx | hx
    · exact c x hx
    · rw [List.mem_singleton] at hx; rw [hx]; exact hn
  · intro x hx
    rcases List.mem_append.1 hx with hx | hx
    · exact List.mem_append_left _ (d x hx)
    · exact List.mem_append_right _ hx
  · intro x hx
    rcases List.mem_append.1 hx with hx | hx
    · exact List.mem_append_left _ (e x hx)
    · exact List.mem_append_right _ hx

theorem SyncInv.init (w : World) (self b : Nat) (hwf : WellFormed (w.plans self))
    (hown : OwnSlots w self b) : SyncInv w self b [] w where
  others := fun _ _ => rfl
  base_eq := rfl
  mapping_eq := rfl
  prefetch_eq := rfl
  errors_eq := rfl
  crashed_eq := rfl
  wf := hwf
  own := hown
  next_le := le_refl _
  added := ⟨[], by simp, by simp⟩
  synced := by simp
  pending := fun _ _ _ => rfl
  frame := fun _ _ _ => rfl
  present := by simp

/-- An iteration on a name the plan already has keeps the invariant. -/
theorem SyncInv.step_has {w : World} {self b : Nat} {pre : List (StringName × BBVariable)}
    {s : World} (hI : SyncInv w self b pre s) (hw : WellFormed (w.plans self))
    (ho : OwnSlots w self b) (x : StringName × BBVariable) (hx : x ∈ (w.plans b).var_list)
    (hfresh : x.1 ∉ pre.map Prod.fst)
    (h : HashMap.has (s.plans self).var_map x.1 = true) :
    SyncInv w self b (pre ++ [x]) (sync_var self s x) := by
  rw [sync_var_of_has self s x h]
  obtain ⟨added, hadd, haddp⟩ := hI.added
  have hvs : (x.1, var_of s self x.1) ∈ (s.plans self).var_list := hI.wf.mem_var_of h
  have hvw : (x.1, var_of s self x.1) ∈ (w.plans self).var_list := by
    rw [hadd] at hvs
    rcases List.mem_append.1 hvs with hv | hv
    · exact hv
    · obtain ⟨_, f, hf, hfe, _⟩ := haddp _ hv
      exact absurd (List.mem_map.2 ⟨f, hf, hfe⟩) hfresh
  have hvlt : var_of s self x.1 < w.next := ho.2.1 _ hvw
  have hsv : s.vars (var_of s self x.1) = w.vars (var_of s self x.1) :=
    hI.pending _ hvw hfresh
  have hsx : s.vars x.2 = w.vars x.2 :=
    hI.frame _ (ho.2.2.1 _ hx) (fun e he => ho.2.2.2 e he x hx)
  have hother : ∀ e ∈ (w.plans self).var_list, e.1 ≠ x.1 → e.2 ≠ var_of s self x.1 := by
    intro e he hne heq
    have := slot_unique ho.1 he hvw heq
    exact hne (by rw [this])
  refine
    { others := hI.others, base_eq := hI.base_eq, mapping_eq := hI.mapping_eq,
      prefetch_eq := hI.prefetch_eq, errors_eq := hI.errors_eq, crashed_eq := hI.crashed_eq,
      wf := hI.wf, own := hI.own, next_le := hI.next_le,
      added := ?_, synced := ?_, pending := ?_, frame := ?_, present := ?_ }
  · refine ⟨added, hadd, ?_⟩
    intro a ha
    obtain ⟨hle, f, hf, hfe, hd⟩ := haddp a ha
    refine ⟨hle, f, List.mem_append_left _ hf, hfe, ?_⟩
    rw [World.setData_vars_other _ _ (Nat.ne_of_gt (Nat.lt_of_lt_of_le hvlt hle)), hd]
  · intro e he f hf hfe
    rcases List.mem_append.1 hf with hf | hf
    · have hne : e.1 ≠ x.1 := by
        intro hc
        exact hfresh (List.mem_map.2 ⟨f, hf, hfe.trans hc⟩)
      rw [World.setData_vars_other _ _ (hother e he hne)]
      exact hI.synced e he f hf hfe
    · rw [List.mem_singleton] at hf
      subst hf
      have hee : e = (f.1, var_of s self f.1) := entry_unique hw.1 he hvw hfe.symm
      rw [hee]
      simp only [World.setData_vars_self, hsv, hsx]
  · intro e he hnot
    have hne : e.1 ≠ x.1 := by
      intro hc
      apply hnot
      rw [List.map_append, List.mem_append]
      exact Or.inr (by simp [hc])
    have hnp : e.1 ∉ pre.map Prod.fst := by
      intro hc
      apply hnot
      rw [List.map_append, List.mem_append]
      exact Or.inl hc
    rw [World.setData_vars_other _ _ (hother e he hne)]
    exact hI.pending e he hnp
  · intro k hk hkn
    rw [World.setData_vars_other _ _ (fun hc => hkn _ hvw hc.symm)]
    exact hI.frame k hk hkn
  · intro f hf
    rcases List.mem_append.1 hf with hf | hf
    · exact hI.present f hf
    · rw [List.mem_singleton] at hf
      subst hf
      exact h

theorem World.alloc_vars_old (w : World) (d : BBData) {k : Nat} (h : k < w.next) :
    (w.alloc d).1.vars k = w.vars k := by
  simp [World.alloc, Nat.ne_of_lt h]

theorem World.alloc_vars_new (w : World) (d : BBData) : (w.alloc d).1.vars w.next = d := by
  simp [World.alloc]

/-- An iteration on a name the plan lacks keeps the invariant. -/
theorem SyncInv.step_not_has {w : World} {self b : Nat} {pre : List (StringName × BBVariable)}
    {s : World} (hI : SyncInv w self b pre s) (hne : self ≠ b)
    (ho : OwnSlots w self b) (x : StringName × BBVariable) (hx : x ∈ (w.plans b).var_list)
    (hxn : x.1 ≠ "")
    (h : HashMap.has (s.plans self).var_map x.1 = false) :
    SyncInv w self b (pre ++ [x]) (sync_var self s x) := by
  rw [sync_var_of_not_has self s x h hxn]
  obtain ⟨added, hadd, haddp⟩ := hI.added
  have hsx : s.vars x.2 = w.vars x.2 :=
    hI.frame _ (ho.2.2.1 _ hx) (fun e he => ho.2.2.2 e he x hx)
  have hbs : s.plans b = w.plans b := hI.others b (Ne.symm hne)
  have hxs : x ∈ (s.plans b).var_list := by rw [hbs]; exact hx
  have hnotin : x.1 ∉ (s.plans self).var_list.map Prod.fst := by
    intro hc
    have := (hI.wf.has_iff x.1).2 hc
    rw [h] at this
    exact Bool.noConfusion this
  have hold : ∀ k, k < s.next →
      ((s.alloc { s.vars x.2 with value_changed := false }).1.setPlan self
          { s.plans self with
            var_map := (s.plans self).var_map ++ [(x.1, s.next)]
            var_list := (s.plans self).var_list ++ [(x.1, s.next)] }).vars k = s.vars k := by
    intro k hk
    rw [World.setPlan_vars, World.alloc_vars_old _ _ hk]
  have hwlt : ∀ e ∈ (w.plans self).var_list, e.2 < s.next :=
    fun e he => Nat.lt_of_lt_of_le (ho.2.1 e he) hI.next_le
  refine
    { others := ?_, base_eq := ?_, mapping_eq := ?_,
      prefetch_eq := ?_, errors_eq := hI.errors_eq, crashed_eq := hI.crashed_eq,
      wf := ?_, own := ?_, next_le := ?_,
      added := ?_, synced := ?_, pending := ?_, frame := ?_, present := ?_ }
  · intro k hk
    rw [World.setPlan_plans_other _ _ hk]
    exact hI.others k hk
  · rw [World.setPlan_plans_self]; exact hI.base_eq
  · rw [World.setPlan_plans_self]; exact hI.mapping_eq
  · rw [World.setPlan_plans_self]; exact hI.prefetch_eq
  · rw [World.setPlan_plans_self]
    exact hI.wf.append _ hxn h
  · obtain ⟨o1, o2, o3, o4⟩ := hI.own
    refine ⟨?_, ?_, ?_, ?_⟩
    · rw [World.setPlan_plans_self]
      simp only [List.map_append, List.map_cons, List.map_nil]
      rw [List.nodup_append]
      refine ⟨o1, List.nodup_singleton _, ?_⟩
      intro k hk hk'
      rw [List.mem_singleton] at hk'
      obtain ⟨e, he, rfl⟩ := List.mem_map.1 hk
      exact absurd hk' (Nat.ne_of_lt (o2 e he))
    · rw [World.setPlan_plans_self]
      intro e he
      show e.2 < s.next + 1
      rcases List.mem_append.1 he with he | he
      · exact Nat.lt_succ_of_lt (o2 e he)
      · rw [List.mem_singleton] at he; rw [he]; exact Nat.lt_succ_self _
    · rw [World.setPlan_plans_other _ _ (Ne.symm hne)]
      intro f hf
      show f.2 < s.next + 1
      exact Nat.lt_succ_of_lt (o3 f hf)
    · rw [World.setPlan_plans_self, World.setPlan_plans_other _ _ (Ne.symm hne)]
      intro e he f hf
      rcases List.mem_append.1 he with he | he
      · exact o4 e he f hf
      · rw [List.mem_singleton] at he; rw [he]
        exact Nat.ne_of_gt (o3 f hf)
  · show w.next ≤ s.next + 1
    exact Nat.le_succ_of_le hI.next_le
  · refine ⟨added ++ [(x.1, s.next)], ?_, ?_⟩
    · rw [World.setPlan_plans_self]
      show (s.plans self).var_list ++ [(x.1, s.next)] = _
      rw [hadd, List.append_assoc]
    · intro a ha
      rcases List.mem_append.1 ha with ha | ha
      · obtain ⟨hle, f, hf, hfe, hd⟩ := haddp a ha
        refine ⟨hle, f, List.mem_append_left _ hf, hfe, ?_⟩
        have halt : a.2 < s.next :=
          hI.own.2.1 a (by rw [hadd]; exact List.mem_append_right _ ha)
        rw [hold _ halt, hd]
      · rw [List.mem_singleton] at ha
        subst ha
        refine ⟨hI.next_le, x, List.mem_append_right _ (List.mem_singleton_self _), rfl, ?_⟩
        rw [World.setPlan_vars, World.alloc_vars_new, hsx]
  · intro e he f hf hfe
    rw [hold _ (hwlt e he)]
    rcases List.mem_append.1 hf with hf | hf
    · exact hI.synced e he f hf hfe
    · rw [List.mem_singleton] at hf
      subst hf
      exfalso
      apply hnotin
      rw [hfe]
      exact List.mem_map.2 ⟨e, by rw [hadd]; exact List.mem_append_left _ he, rfl⟩
  · intro e he hnot
    rw [hold _ (hwlt e he)]
    apply hI.pending e he
    intro hc
    apply hnot
    rw [List.map_append, List.mem_append]
    exact Or.inl hc
  · intro k hk hkn
    rw [hold _ (Nat.lt_of_lt_of_le hk hI.next_le)]
    exact hI.frame k hk hkn
  · intro f hf
    rw [World.setPlan_plans_self]
    rw [HashMap.has_eq_true_iff]
    simp only [List.map_append, List.mem_append]
    rcases List.mem_append.1 hf with hf | hf
    · exact Or.inl ((HashMap.has_eq_true_iff _ _).1 (hI.present f hf))
    · rw [List.mem_singleton] at hf
      subst hf
      exact Or.inr (by simp)

/-- The first loop of `sync_with_base_plan` establishes its invariant for the
whole base list. -/
theorem sync_loop (w : World) (self b : Nat) (hne : self ≠ b)
    (hw : WellFormed (w.plans self)) (hb : WellFormed (w.plans b)) (ho : OwnSlots w self b) :
    SyncInv w self b (w.plans b).var_list ((w.plans b).var_list.foldl (sync_var self) w) := by
  refine foldl_invariant (sync_var self) (fun pre s => SyncInv w self b pre s) _ w
    (SyncInv.init w self b hw ho) ?_
  intro pre x post s hl hI
  have hx : x ∈ (w.plans b).var_list := by
    rw [hl]; exact List.mem_append_right _ (List.mem_cons_self _ _)
  have hfresh : x.1 ∉ pre.map Prod.fst := by
    have hn := hb.1
    rw [hl, List.map_append, List.map_cons, List.nodup_append] at hn
    intro hc
    exact hn.2.2 hc (List.mem_cons_self _ _)
  cases h : HashMap.has (s.plans self).var_map x.1 with
  | true => exact hI.step_has hw ho x hx hfresh h
  | false => exact hI.step_not_has hne ho x hx (hb.2.2.1 x hx) h

theorem take_named_of_mem (n : StringName) (l : List (StringName × BBVariable))
    (h : n ∈ l.map Prod.fst) :
    ∃ f rest, take_named n l = some (f, rest) ∧ f.1 = n ∧ l.Perm (f :: rest) := by
  induction l with
  | nil => simp at h
  | cons e es ih =>
    by_cases he : e.1 = n
    · exact ⟨e, es, by simp [take_named, he], he, List.Perm.refl _⟩
    · have h' : n ∈ es.map Prod.fst := by
        rw [List.map_cons, List.mem_cons] at h
        rcases h with h | h
        · exact absurd h.symm he
        · exact h
      obtain ⟨f, rest, hf, hfn, hp⟩ := ih h'
      refine ⟨f, e :: rest, by simp [take_named, he, hf], hfn, ?_⟩
      exact (List.Perm.cons e hp).trans (List.Perm.swap f e rest)

/-- When the local names are a rearrangement of the base names, the reordering
loop puts the local entries in the base's order and loses none. -/
theorem sync_order_spec (bl : List (StringName × BBVariable)) :
    ∀ l : List (StringName × BBVariable), (l.map Prod.fst).Perm (bl.map Prod.fst) →
      (sync_order bl l).map Prod.fst = bl.map Prod.fst ∧ (sync_order bl l).Perm l := by
  induction bl with
  | nil =>
    intro l hp
    have : l = [] := by
      have := hp.length_eq
      simpa using this
    subst this
    simp [sync_order]
  | cons b bs ih =>
    intro l hp
    cases l with
    | nil =>
      have := hp.length_eq
      simp at this
    | cons e es =>
      by_cases he : e.1 = b.1
      · have hp' : (es.map Prod.fst).Perm (bs.map Prod.fst) := by
          rw [List.map_cons, List.map_cons, he] at hp
          exact hp.cons_inv
        obtain ⟨h1, h2⟩ := ih es hp'
        simp only [sync_order, ne_eq, he, not_true_eq_false, if_false, List.map_cons, h1]
        exact ⟨trivial, List.Perm.cons e h2⟩
      · have hb : b.1 ∈ es.map Prod.fst := by
          have : b.1 ∈ (e :: es).map Prod.fst := hp.symm.subset (by simp)
          rw [List.map_cons, List.mem_cons] at this
          rcases this with h | h
          · exact absurd h.symm he
          · exact h
        obtain ⟨f, rest, hf, hfn, hpr⟩ := take_named_of_mem b.1 es hb
        have hp' : ((e :: rest).map Prod.fst).Perm (bs.map Prod.fst) := by
          have h1 : ((e :: es).map Prod.fst).Perm ((f :: e :: rest).map Prod.fst) :=
            ((List.Perm.cons e hpr).trans (List.Perm.swap f e rest)).map _
          have h2 := h1.symm.trans hp
          simp only [List.map_cons, hfn] at h2
          simp only [List.map_cons]
          exact h2.cons_inv
        obtain ⟨h1, h2⟩ := ih (e :: rest) hp'
        simp only [sync_order, ne_eq, he, not_false_eq_true, if_true, hf, List.map_cons, h1, hfn]
        refine ⟨trivial, ?_⟩
        exact (List.Perm.cons f h2).trans
          ((List.Perm.swap e f rest).trans (List.Perm.cons e hpr.symm))

/-- On a list that already carries the base names in the base order the
reordering loop moves nothing. -/
theorem sync_order_fixed (bl : List (StringName × BBVariable)) :
    ∀ l : List (StringName × BBVariable), l.map Prod.fst = bl.map Prod.fst →
      sync_order bl l = l := by
  induction bl with
  | nil => intro l _; rfl
  | cons b bs ih =>
    intro l hl
    cases l with
    | nil => simp at hl
    | cons e es =>
      simp only [List.map_cons, List.cons.injEq] at hl
      simp only [sync_order, ne_eq, hl.1, not_true_eq_false, if_false, ih es hl.2]

theorem World.setPlan_setPlan (w : World) (self : Nat) (p q : BlackboardPlan) :
    (w.setPlan self p).setPlan self q = w.setPlan self q := by
  cases w with
  | mk vars next plans errors crashed =>
    simp only [World.setPlan, World.mk.injEq, true_and, and_true]
    funext k
    by_cases h : k = self
    · simp [h]
    · simp [h]

theorem BBVariable.eq_self (w : World) (v : BBVariable) : BBVariable.eq w v v = true := by
  simp [BBVariable.eq]

/-- In a list with pairwise distinct names, erasing the first entry equal to the
entry of a name removes exactly the entries of that name. -/
theorem eraseP_pair_eq (w : World) (n : StringName) (v : BBVariable) :
    ∀ l : List (StringName × BBVariable), (l.map Prod.fst).Nodup → (n, v) ∈ l →
      l.eraseP (fun e => pair_eq w e (n, v)) = l.filter (fun e => e.1 != n) := by
  intro l
  induction l with
  | nil => intro _ h; cases h
  | cons e es ih =>
    intro hn hm
    rw [List.map_cons, List.nodup_cons] at hn
    by_cases he : e.1 = n
    · have hev : e = (n, v) := by
        rcases List.mem_cons.1 hm with h | h
        · exact h.symm
        · exfalso
          apply hn.1
          rw [he]
          exact List.mem_map.2 ⟨(n, v), h, rfl⟩
      have hp : pair_eq w e (n, v) = true := by
        rw [hev]; simp [pair_eq, BBVariable.eq_self]
      have hfil : es.filter (fun e => e.1 != n) = es := by
        rw [List.filter_eq_self]
        intro a ha
        simp only [bne_iff_ne, ne_eq]
        intro hc
        apply hn.1
        rw [he, ← hc]
        exact List.mem_map.2 ⟨a, ha, rfl⟩
      rw [List.eraseP_cons, List.filter_cons_of_neg (by simp [he]), hfil]
      simp only [hp, cond_true]
    · have hp : ¬ pair_eq w e (n, v) = true := by
        simp [pair_eq, he]
      have hm' : (n, v) ∈ es := by
        rcases List.mem_cons.1 hm with h | h
        · exact absurd (by rw [← h]) he
        · exact h
      rw [List.eraseP_cons, List.filter_cons_of_pos (by simp [he]), ih hn.2 hm']
      simp only [hp, cond_false]

/-- Restricting the list and the map of a plan to the names that pass a test
keeps the representation invariant. -/
theorem WellFormed.filter {p : BlackboardPlan} (h : WellFormed p) (q : StringName → Bool) :
    WellFormed { p with
      var_list := p.var_list.filter (fun e => q e.1)
      var_map := p.var_map.filter (fun e => q e.1) } := by
  obtain ⟨a, b, c, d, e⟩ := h
  refine ⟨?_, ?_, ?_, ?_, ?_⟩
  · exact a.sublist ((List.filter_sublist _).map _)
  · exact b.sublist ((List.filter_sublist _).map _)
  · intro x hx
    exact c x (List.mem_filter.1 hx).1
  · intro x hx
    have := List.mem_filter.1 hx
    exact List.mem_filter.2 ⟨d x this.1, this.2⟩
  · intro x hx
    have := List.mem_filter.1 hx
    exact List.mem_filter.2 ⟨e x this.1, this.2⟩

namespace BlackboardPlan

/-- Removing a declared name from a well-formed plan drops its entry from the
list and from the map. -/
theorem remove_var_of_has (w : World) (self : Nat) (n : StringName)
    (hw : WellFormed (w.plans self)) (h : HashMap.has (w.plans self).var_map n = true) :
    remove_var w self n = w.setPlan self { w.plans self with
      var_list := (w.plans self).var_list.filter (fun e => e.1 != n)
      var_map := (w.plans self).var_map.filter (fun e => e.1 != n) } := by
  unfold remove_var
  simp only [h, Bool.not_true, Bool.false_eq_true, if_false, HashMap.erase]
  rw [eraseP_pair_eq w n (var_of w self n) _ hw.1 (hw.mem_var_of h)]

/-- The removal loop of `sync_with_base_plan` on a list of distinct declared
names. -/
theorem remove_loop (self : Nat) :
    ∀ (ns : List StringName) (w : World), WellFormed (w.plans self) → ns.Nodup →
      (∀ n ∈ ns, HashMap.has (w.plans self).var_map n = true) →
      ns.foldl (fun s n => remove_var s self n) w = w.setPlan self { w.plans self with
        var_list := (w.plans self).var_list.filter (fun e => decide (e.1 ∉ ns))
        var_map := (w.plans self).var_map.filter (fun e => decide (e.1 ∉ ns)) } := by
  intro ns
  induction ns with
  | nil =>
    intro w _ _ _
    simp only [List.foldl_nil, List.not_mem_nil, not_false_eq_true, decide_True,
      List.filter_true]
    exact (World.setPlan_same w self).symm
  | cons n ns ih =>
    intro w hw hnd hhas
    rw [List.nodup_cons] at hnd
    rw [List.foldl_cons, remove_var_of_has w self n hw (hhas n (List.mem_cons_self _ _))]
    rw [ih _ (by rw [World.setPlan_plans_self]; exact hw.filter (fun x => x != n)) hnd.2 ?_]
    · have hf : ∀ l : List (StringName × BBVariable),
          (l.filter (fun e => e.1 != n)).filter (fun e => decide (e.1 ∉ ns))
            = l.filter (fun e => decide (e.1 ∉ n :: ns)) := by
        intro l
        rw [List.filter_filter]
        apply List.filter_congr
        intro x _
        by_cases h1 : x.1 = n <;> by_cases h2 : x.1 ∈ ns <;> simp [h1, h2]
      rw [World.setPlan_setPlan, World.setPlan_plans_self]
      simp only [hf]
    · intro m hm
      rw [World.setPlan_plans_self]
      have hmn : m ≠ n := fun hc => hnd.1 (hc ▸ hm)
      have := (HashMap.has_eq_true_iff _ _).1 (hhas m (List.mem_cons_of_mem _ hm))
      obtain ⟨e, he, hem⟩ := List.mem_map.1 this
      rw [HashMap.has_eq_true_iff]
      refine List.mem_map.2 ⟨e, List.mem_filter.2 ⟨he, ?_⟩, hem⟩
      simp [hem, hmn]


/-- The shape of the state after `sync_with_base_plan` on a derived plan: the
state `s` left by the first loop, with the plan's list and map restricted to
the names of the base and the list put in the base's order. -/
theorem sync_result (w : World) (self b : Nat) (h : DerivedFrom w self b) :
    ∃ s l, SyncInv w self b (w.plans b).var_list s ∧
      sync_with_base_plan w self = s.setPlan self { s.plans self with
        var_list := l
        var_map := (s.plans self).var_map.filter (fun e => has_var s b e.1) } ∧
      l.map Prod.fst = (w.plans b).var_list.map Prod.fst ∧
      l.Perm ((s.plans self).var_list.filter (fun e => has_var s b e.1)) := by
  obtain ⟨hbase, hne, hw, hb, ho⟩ := h
  have hI := sync_loop w self b hne hw hb ho
  generalize hs : (w.plans b).var_list.foldl (sync_var self) w = s at hI
  have hbs : s.plans b = w.plans b := hI.others b (Ne.symm hne)
  -- the removal loop
  have hel_nodup : (erase_list s self b).Nodup :=
    hI.wf.1.sublist ((List.filter_sublist _).map _)
  have hel_has : ∀ n ∈ erase_list s self b, HashMap.has (s.plans self).var_map n = true := by
    intro n hn
    obtain ⟨e, he, rfl⟩ := List.mem_map.1 hn
    exact (hI.wf.has_iff e.1).2 (List.mem_map.2 ⟨e, (List.mem_filter.1 he).1, rfl⟩)
  have hkeep : ∀ n : StringName, n ∈ (s.plans self).var_list.map Prod.fst →
      (decide (n ∉ erase_list s self b) = has_var s b n) := by
    intro n hn
    cases hv : has_var s b n with
    | true =>
      simp only [decide_eq_true_eq]
      intro hc
      obtain ⟨e, he, hen⟩ := List.mem_map.1 hc
      have := (List.mem_filter.1 he).2
      rw [hen, hv] at this
      exact Bool.noConfusion this
    | false =>
      simp only [decide_eq_false_iff_not, not_not]
      obtain ⟨e, he, rfl⟩ := List.mem_map.1 hn
      exact List.mem_map.2 ⟨e, List.mem_filter.2 ⟨he, by simp [hv]⟩, rfl⟩
  have hfl : (s.plans self).var_list.filter (fun e => decide (e.1 ∉ erase_list s self b))
      = (s.plans self).var_list.filter (fun e => has_var s b e.1) := by
    apply List.filter_congr
    intro e he
    exact hkeep e.1 (List.mem_map.2 ⟨e, he, rfl⟩)
  have hfm : (s.plans self).var_map.filter (fun e => decide (e.1 ∉ erase_list s self b))
      = (s.plans self).var_map.filter (fun e => has_var s b e.1) := by
    apply List.filter_congr
    intro e he
    exact hkeep e.1 (List.mem_map.2 ⟨e, hI.wf.2.2.2.2 e he, rfl⟩)
  have hloop := remove_loop self (erase_list s self b) s hI.wf hel_nodup hel_has
  rw [hfl, hfm] at hloop
  -- the names left are those of the base
  have hperm : (((s.plans self).var_list.filter (fun e => has_var s b e.1)).map Prod.fst).Perm
      ((w.plans b).var_list.map Prod.fst) := by
    rw [List.perm_ext_iff_of_nodup (hI.wf.1.sublist ((List.filter_sublist _).map _)) hb.1]
    intro n
    constructor
    · intro hn
      obtain ⟨e, he, rfl⟩ := List.mem_map.1 hn
      have := (List.mem_filter.1 he).2
      unfold has_var at this
      rw [hbs] at this
      exact (hb.has_iff e.1).1 this
    · intro hn
      obtain ⟨f, hf, rfl⟩ := List.mem_map.1 hn
      have hp := (hI.wf.has_iff f.1).1 (hI.present f hf)
      obtain ⟨e, he, hef⟩ := List.mem_map.1 hp
      refine List.mem_map.2 ⟨e, List.mem_filter.2 ⟨he, ?_⟩, hef⟩
      unfold has_var
      rw [hbs, hef]
      exact (hb.has_iff f.1).2 hn
  obtain ⟨hnames, hpl⟩ := sync_order_spec (w.plans b).var_list _ hperm
  refine ⟨s, sync_order (w.plans b).var_list
    ((s.plans self).var_list.filter (fun e => has_var s b e.1)), hI, ?_, hnames, hpl⟩
  unfold sync_with_base_plan
  simp only [hbase, hs, hloop]
  rw [World.setPlan_plans_other _ _ (Ne.symm hne), World.setPlan_plans_self, hbs]
  have hlen : (w.plans b).var_list.length
      = ((s.plans self).var_list.filter (fun e => has_var s b e.1)).length := by
    have := hperm.length_eq
    simp only [List.length_map] at this
    exact this.symm
  simp only [ne_eq, hlen, not_true_eq_false, if_false, World.setPlan_setPlan]

end BlackboardPlan

/-- The representation invariant does not depend on the order of the list. -/
theorem WellFormed.of_perm {p : BlackboardPlan} (h : WellFormed p)
    {l : List (StringName × BBVariable)} (hl : l.Perm p.var_list) :
    WellFormed { p with var_list := l } := by
  obtain ⟨a, b, c, d, e⟩ := h
  refine ⟨?_, b, ?_, ?_, ?_⟩
  · exact ((hl.map Prod.fst).nodup_iff).2 a
  · intro x hx
    exact c x (hl.subset hx)
  · intro x hx
    exact d x (hl.subset hx)
  · intro x hx
    exact hl.symm.subset (e x hx)

namespace BlackboardPlan

/-- What `sync_with_base_plan` leaves untouched on a derived plan: the other plans,
the slots of the base, the alias map, the base reference, the prefetch flag
and the error state. -/
theorem sync_frame (w : World) (self b : Nat) (h : DerivedFrom w self b) :
    (∀ k, k ≠ self → (sync_with_base_plan w self).plans k = w.plans k) ∧
      (∀ f ∈ (w.plans b).var_list, (sync_with_base_plan w self).vars f.2 = w.vars f.2) ∧
      ((sync_with_base_plan w self).plans self).base = (w.plans self).base ∧
      ((sync_with_base_plan w self).plans self).parent_scope_mapping
        = (w.plans self).parent_scope_mapping ∧
      ((sync_with_base_plan w self).plans self).prefetch_nodepath_vars
        = (w.plans self).prefetch_nodepath_vars ∧
      (sync_with_base_plan w self).errors = w.errors ∧
      (sync_with_base_plan w self).crashed = w.crashed := by
  obtain ⟨s, l, hI, hres, _, _⟩ := sync_result w self b h
  obtain ⟨_, _, _, _, ho⟩ := h
  rw [hres]
  refine ⟨?_, ?_, ?_, ?_, ?_, ?_, ?_⟩
  · intro k hk
    rw [World.setPlan_plans_other _ _ hk]
    exact hI.others k hk
  · intro f hf
    rw [World.setPlan_vars]
    exact hI.frame _ (ho.2.2.1 _ hf) (fun e he => ho.2.2.2 e he f hf)
  · rw [World.setPlan_plans_self]; exact hI.base_eq
  · rw [World.setPlan_plans_self]; exact hI.mapping_eq
  · rw [World.setPlan_plans_self]; exact hI.prefetch_eq
  · exact hI.errors_eq
  · exact hI.crashed_eq

/-- After `sync_with_base_plan` a derived plan is reconciled with its base. -/
theorem sync_synced (w : World) (self b : Nat) (h : DerivedFrom w self b) :
    Synced (sync_with_base_plan w self) self b := by
  obtain ⟨s, l, hI, hres, hnames, hperm⟩ := sync_result w self b h
  obtain ⟨hbase, hne, hw, hb, ho⟩ := h
  have hbs : s.plans b = w.plans b := hI.others b (Ne.symm hne)
  rw [hres]
  refine ⟨?_, ?_, ?_, ?_, ?_⟩
  · rw [World.setPlan_plans_self]
    exact hI.base_eq.trans hbase
  · rw [World.setPlan_plans_self]
    exact WellFormed.of_perm (hI.wf.filter (fun n => has_var s b n)) hperm
  · rw [World.setPlan_plans_other _ _ (Ne.symm hne), hbs]
    exact hb
  · rw [World.setPlan_plans_self, World.setPlan_plans_other _ _ (Ne.symm hne), hbs]
    exact hnames
  · rw [World.setPlan_plans_self, World.setPlan_plans_other _ _ (Ne.symm hne), hbs]
    intro e he f hf hef
    have hes : e ∈ (s.plans self).var_list := (List.mem_filter.1 (hperm.subset he)).1
    have hfv : s.vars f.2 = w.vars f.2 :=
      hI.frame _ (ho.2.2.1 _ hf) (fun e he => ho.2.2.2 e he f hf)
    obtain ⟨added, hadd, haddp⟩ := hI.added
    rw [hadd] at hes
    unfold Agrees
    simp only [World.setPlan_vars, hfv]
    rcases List.mem_append.1 hes with hes | hes
    · rw [hI.synced e hes f hf hef.symm]
      obtain ⟨i1, i2, i3⟩ := sync_data_info (w.vars e.2) (w.vars f.2)
      obtain ⟨v1, v2⟩ := sync_data_value (w.vars e.2) (w.vars f.2)
      exact ⟨i1, i2, i3, v1, v2⟩
    · obtain ⟨_, g, hg, hge, hd⟩ := haddp e hes
      have hgf : g = f := entry_unique hb.1 hg hf (hge.trans hef)
      rw [hd, hgf]
      refine ⟨rfl, rfl, rfl, fun _ => rfl, fun hc => ?_⟩
      exact absurd hc (by simp)

end BlackboardPlan

theorem foldl_fixed {α σ : Type} (f : σ → α → σ) (s : σ) :
    ∀ l : List α, (∀ x ∈ l, f s x = s) → l.foldl f s = s := by
  intro l
  induction l with
  | nil => intro _; rfl
  | cons x xs ih =>
    intro h
    rw [List.foldl_cons, h x (List.mem_cons_self _ _)]
    exact ih (fun y hy => h y (List.mem_cons_of_mem _ hy))

namespace BlackboardPlan

/-- On a plan that is reconciled with its base `sync_with_base_plan` changes
nothing. -/
theorem sync_fixed (w : World) (self b : Nat) (h : Synced w self b) :
    sync_with_base_plan w self = w := by
  obtain ⟨hbase, hw, hb, hnames, hag⟩ := h
  have h1 : (w.plans b).var_list.foldl (sync_var self) w = w := by
    apply foldl_fixed
    intro x hx
    have hxn : x.1 ∈ (w.plans self).var_list.map Prod.fst := by
      rw [hnames]; exact List.mem_map.2 ⟨x, hx, rfl⟩
    have hhas := (hw.has_iff x.1).2 hxn
    rw [sync_var_of_has self w x hhas]
    have hm := hw.mem_var_of hhas
    obtain ⟨a1, a2, a3, a4, a5⟩ := hag _ hm x hx rfl
    rw [sync_data_fixed _ _ ⟨a1, a2, a3⟩ a4 a5, World.setData_same]
  have h2 : erase_list w self b = [] := by
    unfold erase_list
    rw [List.map_eq_nil_iff, List.filter_eq_nil_iff]
    intro e he
    have : e.1 ∈ (w.plans b).var_list.map Prod.fst := by
      rw [← hnames]; exact List.mem_map.2 ⟨e, he, rfl⟩
    have := (hb.has_iff e.1).2 this
    simp [has_var, this]
  have h3 : (w.plans b).var_list.length = (w.plans self).var_list.length := by
    have := congrArg List.length hnames
    simp only [List.length_map] at this
    exact this.symm
  unfold sync_with_base_plan
  simp only [hbase, h1, h2, List.foldl_nil, ne_eq, h3, not_true_eq_false, if_false,
    sync_order_fixed _ _ hnames]
  rw [← hbase]
  exact World.setPlan_same w self


/-- A variable the derived plan and its base both declare stays in the plan under
its name, and its record is the one the first loop makes of it. -/
theorem sync_existing (w : World) (self b : Nat) (h : DerivedFrom w self b)
    (e f : StringName × BBVariable) (he : e ∈ (w.plans self).var_list)
    (hf : f ∈ (w.plans b).var_list) (hef : f.1 = e.1) :
    e ∈ ((sync_with_base_plan w self).plans self).var_list ∧
      (sync_with_base_plan w self).vars e.2 = sync_data (w.vars e.2) (w.vars f.2) := by
  obtain ⟨s, l, hI, hres, _, hperm⟩ := sync_result w self b h
  obtain ⟨_, hne, _, hb, _⟩ := h
  have hbs : s.plans b = w.plans b := hI.others b (Ne.symm hne)
  obtain ⟨added, hadd, _⟩ := hI.added
  rw [hres, World.setPlan_plans_self, World.setPlan_vars]
  refine ⟨hperm.symm.subset (List.mem_filter.2 ⟨?_, ?_⟩), hI.synced e he f hf hef⟩
  · rw [hadd]; exact List.mem_append_left _ he
  · unfold has_var
    rw [hbs, ← hef]
    exact HashMap.has_of_mem (hb.2.2.2.1 f hf)

/-- C1: after `sync_with_base_plan` on a derived plan (plan and base satisfy the
representation invariant, the plan owns its slots) the plan lists exactly the
names of the base in the base's order, every variable has the type, hint and
hint string of the base's variable of that name, and every variable that is
not marked value-changed holds the base's value; the base is left as it was. -/
theorem sync_with_base_plan_matches_base (w : World) (self b : Nat)
    (h : DerivedFrom w self b) :
    list_vars (sync_with_base_plan w self) self = list_vars (sync_with_base_plan w self) b ∧
      (sync_with_base_plan w self).plans b = w.plans b ∧
      ∀ e ∈ ((sync_with_base_plan w self).plans self).var_list,
        ∀ f ∈ ((sync_with_base_plan w self).plans b).var_list, e.1 = f.1 →
          ((sync_with_base_plan w self).vars e.2).type
              = ((sync_with_base_plan w self).vars f.2).type ∧
            ((sync_with_base_plan w self).vars e.2).hint
              = ((sync_with_base_plan w self).vars f.2).hint ∧
            ((sync_with_base_plan w self).vars e.2).hint_string
              = ((sync_with_base_plan w self).vars f.2).hint_string ∧
            (((sync_with_base_plan w self).vars e.2).value_changed = false →
              ((sync_with_base_plan w self).vars e.2).value
                = ((sync_with_base_plan w self).vars f.2).value) ∧
            (sync_with_base_plan w self).vars f.2 = w.vars f.2 := by
  have hfr := sync_frame w self b h
  obtain ⟨_, _, _, hnames, hag⟩ := sync_synced w self b h
  have hb : (sync_with_base_plan w self).plans b = w.plans b := hfr.1 b (Ne.symm h.2.1)
  refine ⟨hnames, hb, ?_⟩
  intro e he f hf hef
  obtain ⟨a1, a2, a3, a4, _⟩ := hag e he f hf hef
  exact ⟨a1, a2, a3, a4, hfr.2.1 f (hb ▸ hf)⟩

/-- The out-of-step derived plan of `stale_world` ends up listing `health`, `name`,
`speed` like its base. -/
theorem sync_with_base_plan_matches_base_witness :
    DerivedFrom stale_world 0 1 ∧
      list_vars (sync_with_base_plan stale_world 0) 0 = ["health", "name", "speed"] :=
  ⟨by decide, (sync_with_base_plan_matches_base stale_world 0 1 (by decide)).1.trans (by decide)⟩

/-- C2: `sync_with_base_plan` is idempotent on a derived plan: a second call in
succession leaves the whole state as the first call left it (variable order,
names, types, hints, values, value-changed flags and alias map included). -/
theorem sync_with_base_plan_idempotent (w : World) (self b : Nat)
    (h : DerivedFrom w self b) :
    sync_with_base_plan (sync_with_base_plan w self) self = sync_with_base_plan w self :=
  sync_fixed _ self b (sync_synced w self b h)

/-- Idempotence on the out-of-step derived plan of `stale_world`. -/
theorem sync_with_base_plan_idempotent_witness :
    DerivedFrom stale_world 0 1 ∧
      sync_with_base_plan (sync_with_base_plan stale_world 0) 0
        = sync_with_base_plan stale_world 0 :=
  ⟨by decide, sync_with_base_plan_idempotent stale_world 0 1 (by decide)⟩


/-- Setting a declared variable of a derived plan by its own path to a value other
than the base's stores the value and marks the variable value-changed. -/
theorem set_override (w : World) (self b : Nat) (h : DerivedFrom w self b)
    (n : StringName) (v bv : BBVariable) (x : Variant)
    (hv : (n, v) ∈ (w.plans self).var_list) (hbv : (n, bv) ∈ (w.plans b).var_list)
    (hx : x ≠ (w.vars bv).value) :
    _set w self n x
      = (true, w.setData v { w.vars v with value := x, value_changed := true }) := by
  obtain ⟨hbase, hne, hw, hb, ho⟩ := h
  have hhas : HashMap.has (w.plans self).var_map n = true :=
    HashMap.has_of_mem (hw.2.2.2.1 _ hv)
  have hvar : var_of w self n = v := hw.var_of_mem hv
  have hbhas : HashMap.has (w.plans b).var_map n = true :=
    HashMap.has_of_mem (hb.2.2.2.1 _ hbv)
  have hbvar : var_of w b n = bv := hb.var_of_mem hbv
  have hvb : bv ≠ v := fun hc => ho.2.2.2 _ hv _ hbv hc.symm
  unfold _set
  simp only [hhas, if_true, hbase, hvar, base_value, BBVariable.set_value, World.setData_plans,
    hbhas]
  have hbvar' : var_of (w.setData v { w.vars v with value := x, value_changed := true }) b n
      = bv := hbvar
  rw [hbvar', World.setData_vars_other _ _ hvb, if_neg hx]

/-- C3: an override survives reconciliation.  In a derived plan, setting a
variable declared by the plan and its base to a value that differs from the
base's value and has the type the base declares marks the variable
value-changed, and a later `sync_with_base_plan` keeps the variable under its
name with that value and that mark. -/
theorem override_survives_sync (w : World) (self b : Nat) (h : DerivedFrom w self b)
    (n : StringName) (v bv : BBVariable) (x : Variant)
    (hv : (n, v) ∈ (w.plans self).var_list) (hbv : (n, bv) ∈ (w.plans b).var_list)
    (hx : x ≠ (w.vars bv).value) (ht : x.get_type = (w.vars bv).type) :
    (_set w self n x).1 = true ∧
      ((_set w self n x).2.vars v).value = x ∧
      ((_set w self n x).2.vars v).value_changed = true ∧
      (n, v) ∈ ((sync_with_base_plan (_set w self n x).2 self).plans self).var_list ∧
      ((sync_with_base_plan (_set w self n x).2 self).vars v).value = x ∧
      ((sync_with_base_plan (_set w self n x).2 self).vars v).value_changed = true := by
  rw [set_override w self b h n v bv x hv hbv hx]
  have hvb : bv ≠ v := fun hc => h.2.2.2.2.2.2.2 _ hv _ hbv hc.symm
  have h' : DerivedFrom (w.setData v { w.vars v with value := x, value_changed := true })
      self b := h
  obtain ⟨hm, hd⟩ := sync_existing _ self b h' (n, v) (n, bv) hv hbv rfl
  have hk := sync_data_keeps
    ((w.setData v { w.vars v with value := x, value_changed := true }).vars v)
    ((w.setData v { w.vars v with value := x, value_changed := true }).vars bv)
    (by simp) (by rw [World.setData_vars_other _ _ hvb]; simpa using ht)
  simp only [World.setData_vars_self] at hk hd ⊢
  refine ⟨trivial, trivial, trivial, hm, ?_, ?_⟩
  · rw [hd]; exact hk.1
  · rw [hd]; exact hk.2

/-- The example of the specification: the base declares `health : int = 100`, the
derived plan sets `health` to 50, and reconciliation keeps 50. -/
theorem override_survives_sync_witness :
    DerivedFrom (sync_with_base_plan health_world 0) 0 1 ∧
      ((sync_with_base_plan
          (_set (sync_with_base_plan health_world 0) 0 "health" (Variant.int 50)).2 0).vars
        1).value = Variant.int 50 :=
  ⟨by decide,
    (override_survives_sync (sync_with_base_plan health_world 0) 0 1 (by decide) "health" 1 0
      (Variant.int 50) (by decide) (by decide) (by decide) (by decide)).2.2.2.2.1⟩

end BlackboardPlan

theorem is_valid_identifier_ne_empty {s : String} (h : is_valid_identifier s = true) : s ≠ "" := by
  intro hs
  subst hs
  exact Bool.noConfusion h

namespace BlackboardPlan

theorem is_valid_var_name_spec {w : World} {self : Nat} {n : StringName}
    (h : is_valid_var_name w self n = true) :
    begins_with n "resource_" = false ∧ is_valid_identifier n = true ∧
      HashMap.has (w.plans self).var_map n = false := by
  unfold is_valid_var_name at h
  cases hb : begins_with n "resource_" with
  | true => rw [hb] at h; simp at h
  | false =>
    rw [hb] at h
    simp only [Bool.false_eq_true, if_false, Bool.and_eq_true, Bool.not_eq_true'] at h
    exact ⟨rfl, h.1, h.2⟩

/-- C6: for a name that passes `is_valid_var_name`, `add_var` appends the name with
the given variable at the end of the variable list, the number of variables
grows by one, and the variables declared before, their order and the alias
map are unchanged (as are all variable records and the other plans). -/
theorem add_var_appends (w : World) (self : Nat) (n : StringName) (v : BBVariable)
    (h : is_valid_var_name w self n = true) :
    ((add_var w self n v).plans self).var_list = (w.plans self).var_list ++ [(n, v)] ∧
      ((add_var w self n v).plans self).var_list.getLast? = some (n, v) ∧
      ((add_var w self n v).plans self).var_list.length = (w.plans self).var_list.length + 1 ∧
      HashMap.size ((add_var w self n v).plans self).var_map
        = HashMap.size (w.plans self).var_map + 1 ∧
      ((add_var w self n v).plans self).var_map = (w.plans self).var_map ++ [(n, v)] ∧
      ((add_var w self n v).plans self).parent_scope_mapping
        = (w.plans self).parent_scope_mapping ∧
      (add_var w self n v).vars = w.vars ∧
      (∀ k, k ≠ self → (add_var w self n v).plans k = w.plans k) ∧
      (add_var w self n v).errors = w.errors := by
  obtain ⟨_, hid, hnew⟩ := is_valid_var_name_spec h
  have hne : n ≠ "" := is_valid_identifier_ne_empty hid
  unfold add_var
  simp only [hne, if_false, hnew, Bool.false_eq_true, World.setPlan_plans_self,
    HashMap.insert_of_not_has _ hnew, World.setPlan_vars, World.setPlan_errors, HashMap.size,
    List.length_append, List.length_singleton, List.getLast?_append, List.getLast?_singleton,
    true_and, and_true]
  exact ⟨rfl, fun k hk => World.setPlan_plans_other _ _ hk⟩

/-- Adding `mana` to the derived plan of `stale_world`. -/
theorem add_var_appends_witness :
    is_valid_var_name stale_world 0 "mana" = true ∧
      ((add_var stale_world 0 "mana" 7).plans 0).var_list
        = [("speed", 3), ("extra", 4), ("health", 5), ("mana", 7)] :=
  ⟨by decide, (add_var_appends stale_world 0 "mana" 7 (by decide)).1⟩

end BlackboardPlan

theorem slices_of_not_mem (sep : Char) :
    ∀ l : List Char, sep ∉ l → slices sep l = [l] := by
  intro l
  induction l with
  | nil => intro _; rfl
  | cons c cs ih =>
    intro h
    rw [List.mem_cons, not_or] at h
    have hc : ¬ c = sep := fun hc => h.1 hc.symm
    simp only [slices, hc, if_false, ih h.2]

/-- The slice after the group name of a path `mapping/<name>` is the name. -/
theorem get_slicec_mapping (n : String) (h : '/' ∉ n.data) :
    get_slicec ("mapping/" ++ n) '/' 1 = n := by
  have hd : ("mapping/" ++ n).data = 'm' :: 'a' :: 'p' :: 'p' :: 'i' :: 'n' :: 'g' :: '/' :: n.data :=
    rfl
  unfold get_slicec
  rw [hd]
  simp only [slices, slices_of_not_mem '/' n.data h]
  simp

theorem begins_with_mapping (n : String) : begins_with ("mapping/" ++ n) "mapping/" = true := by
  have hd : ("mapping/" ++ n).data = "mapping/".data ++ n.data := rfl
  unfold begins_with
  rw [hd]
  simp

theorem HashMap.find_insert_self {β : Type} (m : HashMap β) (k : StringName) (v : β) :
    HashMap.find (HashMap.insert m k v) k = some v := by
  induction m with
  | nil => simp [HashMap.insert, HashMap.find]
  | cons e es ih =>
    by_cases h : e.1 = k
    · simp [HashMap.insert, HashMap.find, h]
    · simp [HashMap.insert, HashMap.find, h, ih]

theorem HashMap.find_insert_of_ne {β : Type} (m : HashMap β) {k k' : StringName} (v : β)
    (hk : k' ≠ k) : HashMap.find (HashMap.insert m k v) k' = HashMap.find m k' := by
  induction m with
  | nil => simp [HashMap.insert, HashMap.find, Ne.symm hk]
  | cons e es ih =>
    by_cases h : e.1 = k
    · have : ¬ e.1 = k' := fun hc => hk (hc.symm.trans h)
      simp [HashMap.insert, HashMap.find, h, this, Ne.symm hk]
    · by_cases h' : e.1 = k'
      · simp [HashMap.insert, HashMap.find, h, h', hk]
      · simp [HashMap.insert, HashMap.find, h, h', ih]

theorem HashMap.find_erase_of_ne {β : Type} (m : HashMap β) {k k' : StringName}
    (hk : k' ≠ k) : HashMap.find (HashMap.erase m k) k' = HashMap.find m k' := by
  induction m with
  | nil => rfl
  | cons e es ih =>
    unfold HashMap.erase at ih ⊢
    by_cases h : e.1 = k
    · have : ¬ e.1 = k' := fun hc => hk (hc.symm.trans h)
      simp [List.filter_cons, HashMap.find, h, this, Ne.symm hk, ih]
    · by_cases h' : e.1 = k'
      · simp [List.filter_cons, HashMap.find, h, h', hk]
      · simp [List.filter_cons, HashMap.find, h, h', ih]

theorem HashMap.has_iff_find {β : Type} (m : HashMap β) (k : StringName) :
    HashMap.has m k = true ↔ (HashMap.find m k).isSome = true := by
  induction m with
  | nil => simp [HashMap.has, HashMap.find]
  | cons e es ih =>
    by_cases h : e.1 = k
    · simp [HashMap.has, HashMap.find, h]
    · have ih' : (es.any fun e => e.1 == k) = true ↔ (HashMap.find es k).isSome = true := ih
      simp only [HashMap.has, HashMap.find, h, List.any_cons, beq_iff_eq, if_false,
        Bool.or_eq_true, decide_eq_true_eq, false_or]
      exact ih'

namespace BlackboardPlan

/-- C7, as the code has it: `remove_var` on a declared name of a well-formed plan
removes the variable from the list and from the map and keeps the other
variables in their order; the parent-scope mapping is not touched, so an
alias entry of the removed name stays. -/
theorem remove_var_removes (w : World) (self : Nat) (n : StringName)
    (hw : WellFormed (w.plans self)) (h : has_var w self n = true) :
    has_var (remove_var w self n) self n = false ∧
      n ∉ list_vars (remove_var w self n) self ∧
      ((remove_var w self n).plans self).var_list
        = (w.plans self).var_list.filter (fun e => e.1 != n) ∧
      ((remove_var w self n).plans self).parent_scope_mapping
        = (w.plans self).parent_scope_mapping ∧
      (remove_var w self n).vars = w.vars ∧
      (remove_var w self n).errors = w.errors := by
  rw [remove_var_of_has w self n hw h]
  unfold has_var list_vars
  simp only [World.setPlan_plans_self, World.setPlan_vars, World.setPlan_errors, and_true]
  refine ⟨HashMap.has_erase_self _ n, ?_⟩
  intro hc
  obtain ⟨e, he, hen⟩ := List.mem_map.1 hc
  have := (List.mem_filter.1 he).2
  simp [hen] at this

/-- Removing `extra` from the derived plan of `stale_world`. -/
theorem remove_var_removes_witness :
    WellFormed (stale_world.plans 0) ∧ has_var stale_world 0 "extra" = true ∧
      ((remove_var stale_world 0 "extra").plans 0).var_list = [("speed", 3), ("health", 5)] :=
  ⟨by decide, by decide,
    (remove_var_removes stale_world 0 "extra" (by decide) (by decide)).2.2.1.trans (by decide)⟩

/-- C7 fails as stated: `speed` is declared in the derived plan of `stale_world` and
aliased to `velocity`; after `remove_var` the variable is gone but the
mapping still has its entry. -/
theorem remove_var_keeps_alias :
    has_var stale_world 0 "speed" = true ∧
      has_var (remove_var stale_world 0 "speed") 0 "speed" = false ∧
      HashMap.find ((remove_var stale_world 0 "speed").plans 0).parent_scope_mapping "speed"
        = some "velocity" := by
  decide

/-- C8, as the code has it: the set-by-path operation on `mapping/<name>` with a
non-empty target succeeds and records the alias whether or not the name is a
declared variable (the path itself not being the name of a variable). -/
theorem set_mapping_records (w : World) (self : Nat) (n : StringName) (x : Variant)
    (hn : '/' ∉ n.data) (hp : has_var w self ("mapping/" ++ n) = false)
    (hx : x.toStringName ≠ "") :
    (_set w self ("mapping/" ++ n) x).1 = true ∧
      HashMap.find ((_set w self ("mapping/" ++ n) x).2.plans self).parent_scope_mapping n
        = some x.toStringName ∧
      ((_set w self ("mapping/" ++ n) x).2.plans self).parent_scope_mapping
        = HashMap.insert (w.plans self).parent_scope_mapping n x.toStringName ∧
      ((_set w self ("mapping/" ++ n) x).2.plans self).var_list = (w.plans self).var_list ∧
      ((_set w self ("mapping/" ++ n) x).2.plans self).var_map = (w.plans self).var_map := by
  unfold has_var at hp
  unfold _set
  simp only [hp, Bool.false_eq_true, if_false, begins_with_mapping, if_true,
    get_slicec_mapping n hn, hx, World.setPlan_plans_self, and_true, true_and]
  exact HashMap.find_insert_self _ _ _

/-- Aliasing the declared `health` of the derived plan of `stale_world`. -/
theorem set_mapping_records_witness :
    has_var stale_world 0 "mapping/health" = false ∧
      HashMap.find
          ((_set stale_world 0 "mapping/health" (Variant.string_name "hp")).2.plans
            0).parent_scope_mapping "health"
        = some "hp" :=
  ⟨by decide,
    (set_mapping_records stale_world 0 "health" (Variant.string_name "hp") (by decide)
      (by decide) (by decide)).2.1⟩

/-- C8 fails as stated: `ghost` is not declared in the derived plan of
`stale_world`, yet setting `mapping/ghost` reports success and adds an entry
for `ghost` to the parent-scope mapping. -/
theorem set_mapping_undeclared_succeeds :
    has_var stale_world 0 "ghost" = false ∧
      (_set stale_world 0 "mapping/ghost" (Variant.string_name "target")).1 = true ∧
      ((_set stale_world 0 "mapping/ghost" (Variant.string_name "target")).2.plans
          0).parent_scope_mapping
        = [("speed", "velocity"), ("ghost", "target")] := by
  decide

/-- C9, as the code has it: `add_var` reports an error and changes nothing when the
name is empty or already declared; any other name, one with the reserved
prefix included, is appended. -/
theorem add_var_rejects (w : World) (self : Nat) (n : StringName) (v : BBVariable) :
    ((n = "" ∨ has_var w self n = true) →
        (add_var w self n v).plans = w.plans ∧ (add_var w self n v).vars = w.vars ∧
          (add_var w self n v).errors = w.errors + 1) ∧
      (n ≠ "" → has_var w self n = false →
        ((add_var w self n v).plans self).var_list = (w.plans self).var_list ++ [(n, v)] ∧
          (add_var w self n v).errors = w.errors) := by
  unfold has_var add_var
  constructor
  · intro h
    by_cases hn : n = ""
    · simp [hn, World.err]
    · rcases h with h | h
      · exact absurd h hn
      · simp [hn, h, World.err]
  · intro hn h
    simp [hn, h]

/-- Adding the declared name `speed` to the derived plan of `stale_world` fails;
adding the new name `mana` appends it. -/
theorem add_var_rejects_witness :
    has_var stale_world 0 "speed" = true ∧
      (add_var stale_world 0 "speed" 7).plans = stale_world.plans ∧
      ((add_var stale_world 0 "mana" 7).plans 0).var_list
        = (stale_world.plans 0).var_list ++ [("mana", 7)] :=
  ⟨by decide,
    ((add_var_rejects stale_world 0 "speed" 7).1 (Or.inr (by decide))).1,
    ((add_var_rejects stale_world 0 "mana" 7).2 (by decide) (by decide)).1⟩

/-- C9 fails as stated: `resource_x` starts with the reserved prefix and
`is_valid_var_name` rejects it, yet `add_var` reports no error and declares
it. -/
theorem add_var_accepts_reserved :
    begins_with "resource_x" "resource_" = true ∧
      is_valid_var_name stale_world 0 "resource_x" = false ∧
      (add_var stale_world 0 "resource_x" 7).errors = stale_world.errors ∧
      ((add_var stale_world 0 "resource_x" 7).plans 0).var_list
        = [("speed", 3), ("extra", 4), ("health", 5), ("resource_x", 7)] := by
  decide

/-- C10: failed structural operations perform no mutation.  `remove_var` on an
undeclared name, `rename_var` with an undeclared old name or a new name that
fails `is_valid_var_name`, and `move_var` with an index outside `[0, count)`
leave every plan (variable list, name map, alias map) and every variable
record as they were. -/
theorem failed_operations_keep_state (w : World) (self : Nat) (n old new : StringName)
    (i j : Int) :
    (has_var w self n = false →
        (remove_var w self n).plans = w.plans ∧ (remove_var w self n).vars = w.vars) ∧
      ((has_var w self old = false ∨ is_valid_var_name w self new = false) →
        (rename_var w self old new).plans = w.plans ∧
          (rename_var w self old new).vars = w.vars) ∧
      ((i < 0 ∨ (HashMap.size (w.plans self).var_map : Int) ≤ i ∨ j < 0 ∨
          (HashMap.size (w.plans self).var_map : Int) ≤ j) →
        (move_var w self i j).plans = w.plans ∧ (move_var w self i j).vars = w.vars) := by
  refine ⟨?_, ?_, ?_⟩
  · intro h
    unfold has_var at h
    simp [remove_var, h, World.err]
  · intro h
    unfold has_var at h
    unfold rename_var
    by_cases he : old = new
    · simp [he]
    · rcases h with h | h
      · cases hv : is_valid_var_name w self new <;> simp [he, h, hv, World.err]
      · simp [he, h, World.err]
  · intro h
    unfold move_var
    by_cases h1 : i < 0 ∨ i ≥ (HashMap.size (w.plans self).var_map : Int)
    · simp only [h1, if_true, World.err, and_self]
    · by_cases h2 : j < 0 ∨ j ≥ (HashMap.size (w.plans self).var_map : Int)
      · simp only [h1, h2, if_true, if_false, World.err, and_self]
      · exfalso
        rcases h with h | h | h | h
        · exact h1 (Or.inl h)
        · exact h1 (Or.inr h)
        · exact h2 (Or.inl h)
        · exact h2 (Or.inr h)

/-- Failed calls on the derived plan of `stale_world`: removing the undeclared
`ghost`, renaming `speed` to the declared `health`, and moving from index 3
of 3 variables. -/
theorem failed_operations_keep_state_witness :
    has_var stale_world 0 "ghost" = false ∧
      is_valid_var_name stale_world 0 "health" = false ∧
      (remove_var stale_world 0 "ghost").plans = stale_world.plans ∧
      (rename_var stale_world 0 "speed" "health").plans = stale_world.plans ∧
      (move_var stale_world 0 3 0).plans = stale_world.plans :=
  ⟨by decide, by decide,
    ((failed_operations_keep_state stale_world 0 "ghost" "speed" "health" 3 0).1
      (by decide)).1,
    ((failed_operations_keep_state stale_world 0 "ghost" "speed" "health" 3 0).2.1
      (Or.inr (by decide))).1,
    ((failed_operations_keep_state stale_world 0 "ghost" "speed" "health" 3 0).2.2
      (Or.inr (Or.inl (by decide)))).1⟩

end BlackboardPlan

theorem move_before_at {α : Type} (A : List α) (x : α) (R : List α) (k : Nat) :
    move_before (A ++ x :: R) A.length k
      = (A ++ R).take (if A.length < k then k - 1 else k)
          ++ x :: (A ++ R).drop (if A.length < k then k - 1 else k) := by
  unfold move_before
  have h1 : (A ++ x :: R)[A.length]? = some x := by
    rw [List.getElem?_append_right (le_refl _)]
    simp
  have h2 : (A ++ x :: R).eraseIdx A.length = A ++ R := by
    rw [List.eraseIdx_append_of_length_le (le_refl _)]
    simp
  rw [h1]
  simp only [h2]

/-- The two `move_before` calls of `move_var` when the element moves towards the
end of the list. -/
theorem move_forward {α : Type} (A M C : List α) (x y : α) :
    move_before (move_before (A ++ x :: (M ++ y :: C)) A.length (A.length + 1 + M.length))
        (A.length + 1 + M.length) (A.length + 1 + M.length - 1)
      = A ++ (M ++ y :: x :: C) := by
  have e1 : move_before (A ++ x :: (M ++ y :: C)) A.length (A.length + 1 + M.length)
      = (A ++ M ++ [x]) ++ y :: C := by
    rw [move_before_at]
    have hk : (if A.length < A.length + 1 + M.length then A.length + 1 + M.length - 1
        else A.length + 1 + M.length) = (A ++ M).length := by
      rw [if_pos (by omega), List.length_append]; omega
    rw [hk, ← List.append_assoc A M, List.take_left' rfl, List.drop_left' rfl]
    simp
  have hl : A.length + 1 + M.length = (A ++ M ++ [x]).length := by
    simp [List.length_append]; omega
  rw [e1, hl, move_before_at]
  have hk : (if (A ++ M ++ [x]).length < (A ++ M ++ [x]).length - 1
      then (A ++ M ++ [x]).length - 1 - 1 else (A ++ M ++ [x]).length - 1)
      = (A ++ M).length := by
    rw [if_neg (by omega)]
    simp [List.length_append]
  rw [hk, List.append_assoc (A ++ M) [x] C, List.take_left' rfl, List.drop_left' rfl]
  simp

theorem split_at_index {α : Type} (l : List α) (i : Nat) (x : α) (h : l[i]? = some x) :
    ∃ A R, l = A ++ x :: R ∧ A.length = i := by
  have hi : i < l.length := by
    by_contra hc
    rw [List.getElem?_eq_none (Nat.le_of_not_lt hc)] at h
    exact Option.noConfusion h
  refine ⟨l.take i, l.drop (i + 1), ?_, ?_⟩
  · have hx : l[i] = x := by
      rw [List.getElem?_eq_getElem hi] at h
      exact Option.some.inj h
    rw [← hx, ← List.drop_eq_getElem_cons hi, List.take_append_drop]
  · rw [List.length_take]
    omega

/-- The list operations of `move_var` put the element of index `i` at index `j`
and keep the others in their order. -/
theorem move_list_spec {α : Type} (l : List α) (i j : Nat) (x : α) (hx : l[i]? = some x)
    (hj : j < l.length) :
    (if j > i then move_before (move_before l i j) j (j - 1) else move_before l i j)
      = (l.eraseIdx i).take j ++ x :: (l.eraseIdx i).drop j := by
  by_cases hlt : j > i
  · rw [if_pos hlt]
    obtain ⟨A, R, hl, hA⟩ := split_at_index l i x hx
    have hjR : j - i - 1 < R.length := by
      rw [hl, List.length_append, List.length_cons] at hj
      omega
    obtain ⟨M, C, hR, hM⟩ := split_at_index R (j - i - 1) (R[j - i - 1])
      (List.getElem?_eq_getElem hjR)
    generalize R[j - i - 1] = y at hR
    have hje : j = A.length + 1 + M.length := by omega
    subst hl
    subst hR
    rw [← hA, hje, move_forward]
    rw [List.eraseIdx_append_of_length_le (le_refl _)]
    simp only [Nat.sub_self, List.eraseIdx_zero, List.tail_cons]
    have e : A ++ (M ++ y :: C) = (A ++ M ++ [y]) ++ C := by simp
    have hlen : A.length + 1 + M.length = (A ++ M ++ [y]).length := by
      simp [List.length_append]; omega
    rw [e, hlen, List.take_left' rfl, List.drop_left' rfl]
    simp
  · rw [if_neg hlt]
    have : ¬ i < j := hlt
    simp only [move_before, hx, this, if_false]

theorem reinsert_get {α : Type} (r : List α) (j : Nat) (x : α) (hj : j ≤ r.length) :
    (r.take j ++ x :: r.drop j)[j]? = some x ∧ (r.take j ++ x :: r.drop j).eraseIdx j = r := by
  have hl : (r.take j).length = j := by
    rw [List.length_take]; omega
  constructor
  · rw [List.getElem?_append_right (by omega)]
    simp [hl]
  · rw [List.eraseIdx_append_of_length_le (by omega)]
    simp [hl]

theorem reinsert_same {α : Type} (l : List α) (i : Nat) (x : α) (hx : l[i]? = some x) :
    (l.eraseIdx i).take i ++ x :: (l.eraseIdx i).drop i = l := by
  obtain ⟨A, R, hl, hA⟩ := split_at_index l i x hx
  subst hl
  rw [← hA, List.eraseIdx_append_of_length_le (le_refl _)]
  simp only [Nat.sub_self, List.eraseIdx_zero, List.tail_cons]
  rw [List.take_left' rfl, List.drop_left' rfl]

namespace BlackboardPlan

/-- C5: in a plan with `n` variables (as many in the list as in the map) and for
indices `i`, `j` below `n`, `move_var` produces the list obtained by removing
the element of index `i` and inserting it again at position `j`: that
element stands at index `j`, and the other `n - 1` variables keep their
relative order.  This holds for `j < i` and for `j > i` alike. -/
theorem move_var_moves (w : World) (self : Nat) (i j : Nat) (x : StringName × BBVariable)
    (hsize : HashMap.size (w.plans self).var_map = (w.plans self).var_list.length)
    (hx : (w.plans self).var_list[i]? = some x) (hj : j < (w.plans self).var_list.length) :
    ((move_var w self i j).plans self).var_list
        = ((w.plans self).var_list.eraseIdx i).take j
            ++ x :: ((w.plans self).var_list.eraseIdx i).drop j ∧
      ((move_var w self i j).plans self).var_list[j]? = some x ∧
      ((move_var w self i j).plans self).var_list.eraseIdx j
        = (w.plans self).var_list.eraseIdx i ∧
      ((move_var w self i j).plans self).var_map = (w.plans self).var_map ∧
      ((move_var w self i j).plans self).parent_scope_mapping
        = (w.plans self).parent_scope_mapping ∧
      (move_var w self i j).vars = w.vars ∧
      (move_var w self i j).errors = w.errors ∧
      (move_var w self i j).crashed = w.crashed := by
  have hi : i < (w.plans self).var_list.length := by
    by_contra hc
    rw [List.getElem?_eq_none (Nat.le_of_not_lt hc)] at hx
    exact Option.noConfusion hx
  have hlist : ((move_var w self i j).plans self).var_list
      = ((w.plans self).var_list.eraseIdx i).take j
          ++ x :: ((w.plans self).var_list.eraseIdx i).drop j ∧
      ((move_var w self i j).plans self).var_map = (w.plans self).var_map ∧
      ((move_var w self i j).plans self).parent_scope_mapping
        = (w.plans self).parent_scope_mapping ∧
      (move_var w self i j).vars = w.vars ∧
      (move_var w self i j).errors = w.errors ∧
      (move_var w self i j).crashed = w.crashed := by
    unfold move_var
    have c1 : ¬ ((i : Int) < 0 ∨ (i : Int) ≥ (HashMap.size (w.plans self).var_map : Int)) := by
      rw [hsize]; omega
    have c2 : ¬ ((j : Int) < 0 ∨ (j : Int) ≥ (HashMap.size (w.plans self).var_map : Int)) := by
      rw [hsize]; omega
    simp only [c1, c2, if_false, Int.toNat_ofNat, Nat.cast_inj]
    by_cases hij : i = j
    · subst hij
      simp only [if_true, true_and, and_self, and_true]
      exact (reinsert_same _ i x hx).symm
    · have c3 : ¬ ((w.plans self).var_list.length ≤ i ∨ (w.plans self).var_list.length ≤ j) := by
        omega
      have c4 : ((j : Int) > (i : Int)) ↔ j > i := by omega
      simp only [hij, c3, if_false, World.setPlan_plans_self, World.setPlan_vars,
        World.setPlan_errors, World.setPlan_crashed, and_true, c4]
      exact move_list_spec _ i j x hx hj
  have hjle : j ≤ ((w.plans self).var_list.eraseIdx i).length := by
    rw [List.length_eraseIdx, if_pos hi]
    omega
  obtain ⟨g1, g2⟩ := reinsert_get ((w.plans self).var_list.eraseIdx i) j x hjle
  refine ⟨hlist.1, ?_, ?_, hlist.2⟩
  · rw [hlist.1]; exact g1
  · rw [hlist.1]; exact g2

/-- In the derived plan of `stale_world`, moving index 0 to index 2 and moving index
2 to index 0. -/
theorem move_var_moves_witness :
    ((move_var stale_world 0 (0 : Nat) (2 : Nat)).plans 0).var_list
        = [("extra", 4), ("health", 5), ("speed", 3)] ∧
      ((move_var stale_world 0 (2 : Nat) (0 : Nat)).plans 0).var_list
        = [("health", 5), ("speed", 3), ("extra", 4)] :=
  ⟨(move_var_moves stale_world 0 0 2 ("speed", 3) (by decide) (by decide) (by decide)).1.trans
      (by decide),
    (move_var_moves stale_world 0 2 0 ("health", 5) (by decide) (by decide) (by decide)).1.trans
      (by decide)⟩

end BlackboardPlan

/-- In a list with pairwise distinct names, overwriting the first entry equal to
the entry of a name renames exactly the entries of that name, in place. -/
theorem find_set_spec (w : World) (old new : StringName) (v : BBVariable) :
    ∀ l : List (StringName × BBVariable), (l.map Prod.fst).Nodup → (old, v) ∈ l →
      find_set w (old, v) (new, v) l
        = some (l.map (fun e => if e.1 = old then (new, e.2) else e)) := by
  intro l
  induction l with
  | nil => intro _ h; cases h
  | cons e es ih =>
    intro hn hm
    rw [List.map_cons, List.nodup_cons] at hn
    by_cases he : e.1 = old
    · have hev : e = (old, v) := by
        rcases List.mem_cons.1 hm with h | h
        · exact h.symm
        · exfalso
          apply hn.1
          rw [he]
          exact List.mem_map.2 ⟨(old, v), h, rfl⟩
      have hp : pair_eq w e (old, v) = true := by
        rw [hev]; simp [pair_eq, BBVariable.eq_self]
      have hmap : es.map (fun e => if e.1 = old then (new, e.2) else e) = es := by
        conv_rhs => rw [← List.map_id es]
        apply List.map_congr_left
        intro a ha
        have : ¬ a.1 = old := by
          intro hc
          apply hn.1
          rw [he, ← hc]
          exact List.mem_map.2 ⟨a, ha, rfl⟩
        simp [this]
      simp only [find_set, hp, if_true, List.map_cons, he, hmap]
      rw [hev]
    · have hp : pair_eq w e (old, v) = false := by
        simp [pair_eq, he]
      have hm' : (old, v) ∈ es := by
        rcases List.mem_cons.1 hm with h | h
        · exact absurd (by rw [← h]) he
        · exact h
      simp only [find_set, hp, Bool.false_eq_true, if_false, ih hn.2 hm', List.map_cons, he]

namespace BlackboardPlan

/-- C4: in a well-formed plan, renaming a declared variable `old` to a different
name `new` that passes `is_valid_var_name` renames the entry in place (same
index, same slot, hence same value, type and hint), leaves the other entries
and their order unchanged, makes `new` declared with that slot and `old`
undeclared, and moves an alias entry of `old` to `new`. -/
theorem rename_var_renames (w : World) (self : Nat) (old new : StringName)
    (hw : WellFormed (w.plans self)) (hold : has_var w self old = true) (hne : old ≠ new)
    (hvalid : is_valid_var_name w self new = true) :
    ((rename_var w self old new).plans self).var_list
        = (w.plans self).var_list.map (fun e => if e.1 = old then (new, e.2) else e) ∧
      (∀ i : Nat, (w.plans self).var_list[i]? = some (old, var_of w self old) →
        ((rename_var w self old new).plans self).var_list[i]?
          = some (new, var_of w self old)) ∧
      (∀ (i : Nat) (e : StringName × BBVariable), (w.plans self).var_list[i]? = some e →
        e.1 ≠ old →
        ((rename_var w self old new).plans self).var_list[i]? = some e) ∧
      (rename_var w self old new).vars = w.vars ∧
      has_var (rename_var w self old new) self new = true ∧
      var_of (rename_var w self old new) self new = var_of w self old ∧
      has_var (rename_var w self old new) self old = false ∧
      old ∉ list_vars (rename_var w self old new) self ∧
      (∀ t, HashMap.find (w.plans self).parent_scope_mapping old = some t →
        HashMap.find ((rename_var w self old new).plans self).parent_scope_mapping new = some t ∧
          HashMap.has ((rename_var w self old new).plans self).parent_scope_mapping old
            = false) ∧
      (rename_var w self old new).errors = w.errors ∧
      (rename_var w self old new).crashed = w.crashed := by
  obtain ⟨_, _, hnew⟩ := is_valid_var_name_spec hvalid
  unfold has_var at hold
  have hfs := find_set_spec w old new (var_of w self old) _ hw.1 (hw.mem_var_of hold)
  have hres : rename_var w self old new
      = w.setPlan self { w.plans self with
          var_list := (w.plans self).var_list.map (fun e => if e.1 = old then (new, e.2) else e)
          var_map := HashMap.insert (HashMap.erase (w.plans self).var_map old) new
            (var_of w self old)
          parent_scope_mapping :=
            match HashMap.find (w.plans self).parent_scope_mapping old with
            | some t =>
              HashMap.erase (HashMap.insert (w.plans self).parent_scope_mapping new t) old
            | none => (w.plans self).parent_scope_mapping } := by
    unfold rename_var
    simp only [hne, if_false, hvalid, Bool.not_true, Bool.false_eq_true, hold, hnew, hfs]
  rw [hres]
  unfold has_var var_of list_vars
  simp only [World.setPlan_plans_self, World.setPlan_vars, World.setPlan_errors,
    World.setPlan_crashed, true_and, and_true]
  refine ⟨?_, ?_, ?_, ?_, ?_, ?_, ?_⟩
  · intro i hi
    rw [List.getElem?_map, hi]
    simp
  · intro i e hi he
    rw [List.getElem?_map, hi]
    simp [he]
  · rw [HashMap.has_iff_find, HashMap.find_insert_self]
    rfl
  · rw [HashMap.find_insert_self]
    rfl
  · rw [Bool.eq_false_iff]
    intro hh
    rw [HashMap.has_iff_find, HashMap.find_insert_of_ne _ _ hne, ← HashMap.has_iff_find,
      HashMap.has_erase_self] at hh
    exact Bool.noConfusion hh
  · intro hc
    obtain ⟨e, he, hen⟩ := List.mem_map.1 hc
    obtain ⟨a, _, hae⟩ := List.mem_map.1 he
    by_cases hao : a.1 = old
    · rw [if_pos hao] at hae
      rw [← hae] at hen
      exact hne hen.symm
    · rw [if_neg hao] at hae
      rw [← hae] at hen
      exact hao hen
  · intro t ht
    rw [ht]
    simp only
    refine ⟨?_, HashMap.has_erase_self _ _⟩
    rw [HashMap.find_erase_of_ne _ (Ne.symm hne), HashMap.find_insert_self]

/-- Renaming the aliased `speed` of the derived plan of `stale_world` to `pace`. -/
theorem rename_var_renames_witness :
    WellFormed (stale_world.plans 0) ∧ is_valid_var_name stale_world 0 "pace" = true ∧
      ((rename_var stale_world 0 "speed" "pace").plans 0).var_list
        = [("pace", 3), ("extra", 4), ("health", 5)] ∧
      HashMap.find ((rename_var stale_world 0 "speed" "pace").plans 0).parent_scope_mapping "pace"
        = some "velocity" :=
  ⟨by decide, by decide,
    (rename_var_renames stale_world 0 "speed" "pace" (by decide) (by decide) (by decide)
      (by decide)).1.trans (by decide),
    ((rename_var_renames stale_world 0 "speed" "pace" (by decide) (by decide) (by decide)
      (by decide)).2.2.2.2.2.2.2.2.1 "velocity" (by decide)).1⟩

end BlackboardPlan

namespace BlackboardPlan

/-- C11: `is_valid_var_name` is a predicate on the plan's state (it returns a
truth value and no new state) that holds exactly when the name is non-empty,
is a syntactically valid identifier, is not declared in the plan and does not
start with the reserved prefix `resource_`. -/
theorem is_valid_var_name_iff (w : World) (self : Nat) (n : StringName) :
    is_valid_var_name w self n = true ↔
      n ≠ "" ∧ is_valid_identifier n = true ∧ has_var w self n = false ∧
        begins_with n "resource_" = false := by
  constructor
  · intro h
    obtain ⟨h1, h2, h3⟩ := is_valid_var_name_spec h
    exact ⟨is_valid_identifier_ne_empty h2, h2, h3, h1⟩
  · rintro ⟨_, h2, h3, h1⟩
    unfold has_var at h3
    simp [is_valid_var_name, h1, h2, h3]

/-- Setting a base that makes the plan derived: the state before reconciliation. -/
theorem derived_after_set_base (w : World) (self q : Nat) (hq : q ≠ self)
    (hw : WellFormed (w.plans self)) (hb : WellFormed (w.plans q)) (ho : OwnSlots w self q) :
    DerivedFrom (w.setPlan self { w.plans self with base := some q }) self q := by
  refine ⟨?_, Ne.symm hq, ?_, ?_, ?_⟩
  · rw [World.setPlan_plans_self]
  · rw [World.setPlan_plans_self]; exact hw
  · rw [World.setPlan_plans_other _ _ hq]; exact hb
  · unfold OwnSlots
    rw [World.setPlan_plans_self, World.setPlan_plans_other _ _ hq]
    exact ho

/-- C12: a plan given itself as base ends up without base, with its variables,
their order and its alias map unchanged; given another plan `q` (both
well-formed, the plan owning its slots) it ends up with base `q` and
reconciled with it, listing the names of `q` in the order of `q`. -/
theorem set_base_plan_spec (w : World) (self : Nat) :
    (is_derived (set_base_plan w self (some self)) self = false ∧
        ((set_base_plan w self (some self)).plans self).var_list = (w.plans self).var_list ∧
        ((set_base_plan w self (some self)).plans self).var_map = (w.plans self).var_map ∧
        ((set_base_plan w self (some self)).plans self).parent_scope_mapping
          = (w.plans self).parent_scope_mapping ∧
        (set_base_plan w self (some self)).vars = w.vars) ∧
      ∀ q, q ≠ self → WellFormed (w.plans self) → WellFormed (w.plans q) → OwnSlots w self q →
        ((set_base_plan w self (some q)).plans self).base = some q ∧
          is_derived (set_base_plan w self (some q)) self = true ∧
          list_vars (set_base_plan w self (some q)) self = list_vars w q ∧
          Synced (set_base_plan w self (some q)) self q := by
  constructor
  · have h : set_base_plan w self (some self)
        = w.setPlan self { w.plans self with base := none } := by
      unfold set_base_plan sync_with_base_plan
      simp
    rw [h]
    simp [is_derived]
  · intro q hq hw hb ho
    have hd := derived_after_set_base w self q hq hw hb ho
    have h : set_base_plan w self (some q)
        = sync_with_base_plan (w.setPlan self { w.plans self with base := some q }) self := by
      unfold set_base_plan
      have : ¬ (some q = some self) := fun hc => hq (Option.some.inj hc)
      simp only [this, if_false]
    rw [h]
    have hs := sync_synced _ self q hd
    have hf := sync_frame _ self q hd
    have hbq : (sync_with_base_plan (w.setPlan self { w.plans self with base := some q })
        self).plans q = w.plans q := by
      rw [hf.1 q hq, World.setPlan_plans_other _ _ hq]
    refine ⟨hs.1, ?_, ?_, hs⟩
    · unfold is_derived; rw [hs.1]; rfl
    · unfold list_vars
      rw [hs.2.2.2.1, hbq]

/-- Giving the out-of-step plan of `stale_world` itself, then plan 1, as base. -/
theorem set_base_plan_spec_witness :
    is_derived (set_base_plan stale_world 0 (some 0)) 0 = false ∧
      (WellFormed (stale_world.plans 0) ∧ WellFormed (stale_world.plans 1) ∧
        OwnSlots stale_world 0 1) ∧
      list_vars (set_base_plan stale_world 0 (some 1)) 0 = ["health", "name", "speed"] :=
  ⟨(set_base_plan_spec stale_world 0).1.1, by decide,
    ((set_base_plan_spec stale_world 0).2 1 (by decide) (by decide) (by decide)
      (by decide)).2.2.1.trans (by decide)⟩

end BlackboardPlan

namespace BlackboardPlan

/-- Setting a declared variable of a derived plan by its own path to the base's
value stores the value and clears the value-changed mark. -/
theorem set_reset (w : World) (self b : Nat) (h : DerivedFrom w self b)
    (n : StringName) (v bv : BBVariable) (x : Variant)
    (hv : (n, v) ∈ (w.plans self).var_list) (hbv : (n, bv) ∈ (w.plans b).var_list)
    (hx : x = (w.vars bv).value) :
    _set w self n x
      = (true, w.setData v { w.vars v with value := x, value_changed := false }) := by
  obtain ⟨hbase, hne, hw, hb, ho⟩ := h
  have hhas : HashMap.has (w.plans self).var_map n = true :=
    HashMap.has_of_mem (hw.2.2.2.1 _ hv)
  have hvar : var_of w self n = v := hw.var_of_mem hv
  have hbhas : HashMap.has (w.plans b).var_map n = true :=
    HashMap.has_of_mem (hb.2.2.2.1 _ hbv)
  have hbvar : var_of w b n = bv := hb.var_of_mem hbv
  have hvb : bv ≠ v := fun hc => ho.2.2.2 _ hv _ hbv hc.symm
  unfold _set
  simp only [hhas, if_true, hbase, hvar, base_value, BBVariable.set_value, World.setData_plans,
    hbhas]
  have hbvar' : var_of (w.setData v { w.vars v with value := x, value_changed := true }) b n
      = bv := hbvar
  rw [hbvar', World.setData_vars_other _ _ hvb, if_pos hx]
  simp [BBVariable.reset_value_changed, World.setData_setData]

/-- C13: in a derived plan, after a variable declared by the plan and its base is
set by its own property path, it holds the value and is marked value-changed
if and only if the value differs from the base's value for that name (which
the call leaves as it was). -/
theorem set_marks_iff_differs (w : World) (self b : Nat) (h : DerivedFrom w self b)
    (n : StringName) (v bv : BBVariable) (x : Variant)
    (hv : (n, v) ∈ (w.plans self).var_list) (hbv : (n, bv) ∈ (w.plans b).var_list) :
    (_set w self n x).1 = true ∧
      ((_set w self n x).2.vars v).value = x ∧
      (_set w self n x).2.vars bv = w.vars bv ∧
      (((_set w self n x).2.vars v).value_changed = true ↔
        x ≠ ((_set w self n x).2.vars bv).value) := by
  have hvb : bv ≠ v := fun hc => h.2.2.2.2.2.2.2 _ hv _ hbv hc.symm
  by_cases hx : x = (w.vars bv).value
  · rw [set_reset w self b h n v bv x hv hbv hx]
    simp [World.setData_vars_other _ _ hvb, hx]
  · rw [set_override w self b h n v bv x hv hbv hx]
    simp [World.setData_vars_other _ _ hvb, hx]

/-- In the plan of the specification's example, reconciled with its base: setting
`health` to 50 marks it, setting it back to 100 clears the mark. -/
theorem set_marks_iff_differs_witness :
    DerivedFrom (sync_with_base_plan health_world 0) 0 1 ∧
      ((_set (sync_with_base_plan health_world 0) 0 "health" (Variant.int 50)).2.vars
        1).value_changed = true ∧
      ((_set (_set (sync_with_base_plan health_world 0) 0 "health" (Variant.int 50)).2 0
        "health" (Variant.int 100)).2.vars 1).value_changed = false :=
  ⟨by decide,
    ((set_marks_iff_differs (sync_with_base_plan health_world 0) 0 1 (by decide) "health" 1 0
      (Variant.int 50) (by decide) (by decide)).2.2.2).2 (by decide),
    by
      have h := (set_marks_iff_differs
        (_set (sync_with_base_plan health_world 0) 0 "health" (Variant.int 50)).2 0 1
        (by decide) "health" 1 0 (Variant.int 100) (by decide) (by decide)).2.2.2
      cases hc : ((_set (_set (sync_with_base_plan health_world 0) 0 "health"
          (Variant.int 50)).2 0 "health" (Variant.int 100)).2.vars 1).value_changed with
      | false => rfl
      | true => exact absurd (h.1 hc) (by decide)⟩

end BlackboardPlan

namespace BlackboardPlan

end BlackboardPlan

namespace BlackboardPlan

end BlackboardPlan

namespace BlackboardPlan

end BlackboardPlan

namespace BlackboardPlan

end BlackboardPlan

namespace BTAwaitAnimation

/-- The outcome of `_setup`: it fails exactly on a null parameter, a parameter that
yields no player, an empty animation name, or a player without the
animation; when it succeeds the player is recorded. -/
theorem setup_spec (t : BTAwaitAnimation) (players : Nat → AnimationPlayer) :
    ((_setup t players).1.setup_failed = true ↔
        (t.animation_player_param = none ∨ t.animation_player_param = some none ∨
          t.animation_name = "" ∨
          ∃ pl, t.animation_player_param = some (some pl) ∧
            t.animation_name ∉ (players pl).animations)) ∧
      ((_setup t players).1.setup_failed = false →
        ∃ pl, (_setup t players).1.animation_player = some pl) ∧
      (_setup t players).1.animation_name = t.animation_name ∧
      (_setup t players).1.max_time = t.max_time := by
  unfold _setup
  cases hp : t.animation_player_param with
  | none => simp
  | some r =>
    cases r with
    | none => simp
    | some pl =>
      by_cases hn : t.animation_name = ""
      · simp [hn]
      · by_cases hc : t.animation_name ∈ (players pl).animations
        · simp [hn, hc]
        · simp [hn, hc]

/-- C16: once `_setup` has succeeded, `_tick` returns a status that is never
FAILURE: RUNNING exactly when the player is playing, its assigned animation
is the awaited one and the elapsed time is strictly below `max_time`, and
SUCCESS in every other case. -/
theorem tick_after_setup (t : BTAwaitAnimation) (players0 players : Nat → AnimationPlayer)
    (elapsed : ℚ) (h : (_setup t players0).1.setup_failed = false) :
    ∃ pl o, (_setup t players0).1.animation_player = some pl ∧
      _tick (_setup t players0).1 players elapsed = some o ∧
      o.status ≠ Status.FAILURE ∧
      (o.status = Status.RUNNING ↔
        ((players pl).playing = true ∧ (players pl).assigned_animation = t.animation_name ∧
          elapsed < t.max_time)) ∧
      (¬ ((players pl).playing = true ∧ (players pl).assigned_animation = t.animation_name ∧
          elapsed < t.max_time) → o.status = Status.SUCCESS) := by
  obtain ⟨_, hpl, hname, hmax⟩ := setup_spec t players0
  obtain ⟨pl, hpl⟩ := hpl h
  by_cases hc : (players pl).playing = true ∧ (players pl).assigned_animation = t.animation_name
  · by_cases he : elapsed < t.max_time
    · refine ⟨pl, { status := Status.RUNNING, error := false, warning := false }, hpl, ?_,
        by simp, by simp [hc.1, hc.2, he], by simp [hc.1, hc.2, he]⟩
      unfold _tick
      simp [h, hpl, hname, hmax, hc.1, hc.2, he]
    · by_cases hm : t.max_time > 0
      · refine ⟨pl, { status := Status.SUCCESS, error := false, warning := true }, hpl, ?_,
          by simp, by simp [he], by simp⟩
        unfold _tick
        simp [h, hpl, hname, hmax, hc.1, hc.2, he, hm]
      · refine ⟨pl, { status := Status.SUCCESS, error := false, warning := false }, hpl, ?_,
          by simp, by simp [he], by simp⟩
        unfold _tick
        simp [h, hpl, hname, hmax, hc.1, hc.2, he, hm]
  · have hc' : ((players pl).playing
        && decide ((players pl).assigned_animation = t.animation_name)) = false := by
      rw [Bool.eq_false_iff]
      intro hh
      simp only [Bool.and_eq_true, decide_eq_true_eq] at hh
      exact hc hh
    refine ⟨pl, { status := Status.SUCCESS, error := false, warning := false }, hpl, ?_,
      by simp, ?_, by simp⟩
    · unfold _tick
      simp only [h, Bool.false_eq_true, if_false, hpl, hname, hc']
    · constructor
      · intro hh; simp at hh
      · intro hh; exact absurd ⟨hh.1, hh.2.1⟩ hc

end BTAwaitAnimation

namespace BTAwaitAnimation

/-- A 2 second deadline on an animation that never finishes: ticks at elapsed
times 1, 2 and 3 return RUNNING, SUCCESS and SUCCESS. -/
theorem tick_after_setup_witness :
    (_setup walk_task walking_players).1.setup_failed = false ∧
      (∃ pl o, (_setup walk_task walking_players).1.animation_player = some pl ∧
        _tick (_setup walk_task walking_players).1 walking_players 1 = some o ∧
        o.status ≠ Status.FAILURE ∧
        (o.status = Status.RUNNING ↔
          ((walking_players pl).playing = true ∧
            (walking_players pl).assigned_animation = walk_task.animation_name ∧
            (1 : ℚ) < walk_task.max_time)) ∧
        (¬ ((walking_players pl).playing = true ∧
            (walking_players pl).assigned_animation = walk_task.animation_name ∧
            (1 : ℚ) < walk_task.max_time) → o.status = Status.SUCCESS)) ∧
      _tick (_setup walk_task walking_players).1 walking_players 1
        = some { status := Status.RUNNING, error := false, warning := false } ∧
      _tick (_setup walk_task walking_players).1 walking_players 2
        = some { status := Status.SUCCESS, error := false, warning := true } ∧
      _tick (_setup walk_task walking_players).1 walking_players 3
        = some { status := Status.SUCCESS, error := false, warning := true } :=
  ⟨by decide, tick_after_setup walk_task walking_players walking_players 1 (by decide),
    by decide, by decide, by decide⟩

/-- C17: `_setup` fails exactly when the animation-player parameter is not set, or
yields no AnimationPlayer, or the animation name is empty, or the player has
no animation of that name; `_setup` followed by `_tick` yields FAILURE
exactly when `_setup` failed, and then it does so whatever the state of the
players and the elapsed time. -/
theorem tick_fails_iff_setup_failed (t : BTAwaitAnimation)
    (players0 players : Nat → AnimationPlayer) (elapsed : ℚ) :
    ((_setup t players0).1.setup_failed = true ↔
        (t.animation_player_param = none ∨ t.animation_player_param = some none ∨
          t.animation_name = "" ∨
          ∃ pl, t.animation_player_param = some (some pl) ∧
            t.animation_name ∉ (players0 pl).animations)) ∧
      ((∃ o, _tick (_setup t players0).1 players elapsed = some o ∧ o.status = Status.FAILURE) ↔
        (_setup t players0).1.setup_failed = true) ∧
      ((_setup t players0).1.setup_failed = true →
        _tick (_setup t players0).1 players elapsed
          = some { status := Status.FAILURE, error := true, warning := false }) := by
  have hfail : (_setup t players0).1.setup_failed = true →
      _tick (_setup t players0).1 players elapsed
        = some { status := Status.FAILURE, error := true, warning := false } := by
    intro h
    unfold _tick
    rw [if_pos h]
  refine ⟨(setup_spec t players0).1, ⟨?_, ?_⟩, hfail⟩
  · rintro ⟨o, ho, hs⟩
    cases hf : (_setup t players0).1.setup_failed with
    | true => rfl
    | false =>
      exfalso
      unfold _tick at ho
      simp only [hf, Bool.false_eq_true, if_false] at ho
      cases hp : (_setup t players0).1.animation_player with
      | none => rw [hp] at ho; exact Option.noConfusion ho
      | some pl =>
        rw [hp] at ho
        simp only at ho
        split at ho
        · split at ho
          · cases ho; exact Status.noConfusion hs
          · split at ho <;> (cases ho; exact Status.noConfusion hs)
        · cases ho; exact Status.noConfusion hs
  · intro h
    exact ⟨_, hfail h, rfl⟩

/-- A task whose animation name is empty fails its setup and then every tick, also
while the player is playing and at elapsed time 0. -/
theorem tick_fails_iff_setup_failed_witness :
    (_setup { walk_task with animation_name := "" } walking_players).1.setup_failed = true ∧
      _tick (_setup { walk_task with animation_name := "" } walking_players).1 walking_players 0
        = some { status := Status.FAILURE, error := true, warning := false } :=
  ⟨(tick_fails_iff_setup_failed { walk_task with animation_name := "" } walking_players
      walking_players 0).1.2 (Or.inr (Or.inr (Or.inl rfl))),
    (tick_fails_iff_setup_failed { walk_task with animation_name := "" } walking_players
      walking_players 0).2.2 (by decide)⟩

end BTAwaitAnimation

/-- C18: the prefetch asymmetry of `bb_add_var_dup_with_prefetch`.  With prefetch
enabled and a variable of type NodePath: when the path resolves, the store
receives a duplicate whose value is the resolved node; when it does not and
the store has a variable of that name (its own or through its parents), the
store is left as it is; when it does not and the store has no such variable,
the store receives a duplicate whose value is empty.  With prefetch disabled
or any other type the store receives a plain duplicate. -/
theorem prefetch_cases (w : World) (bb : Blackboard) (n : StringName) (v : BBVariable)
    (pf : Bool) (node : Node) (p_node : Option Node) :
    (pf = true → (w.vars v).type = 22 → ∀ obj, node (w.vars v).value = some obj →
        (bb_add_var_dup_with_prefetch w bb n v pf (some node)).2 = bb.assign_var n w.next ∧
          ((bb_add_var_dup_with_prefetch w bb n v pf (some node)).1.vars w.next).value
            = Variant.object obj ∧
          ((bb_add_var_dup_with_prefetch w bb n v pf (some node)).1.vars w.next).type
            = (w.vars v).type) ∧
      (pf = true → (w.vars v).type = 22 → node (w.vars v).value = none →
        bb.has_var n = true →
        (bb_add_var_dup_with_prefetch w bb n v pf (some node)).2 = bb) ∧
      (pf = true → (w.vars v).type = 22 → node (w.vars v).value = none →
        bb.has_var n = false →
        (bb_add_var_dup_with_prefetch w bb n v pf (some node)).2 = bb.assign_var n w.next ∧
          ((bb_add_var_dup_with_prefetch w bb n v pf (some node)).1.vars w.next).value
            = Variant.nil ∧
          ((bb_add_var_dup_with_prefetch w bb n v pf (some node)).1.vars w.next).type
            = (w.vars v).type) ∧
      ((pf = false ∨ (w.vars v).type ≠ 22) →
        (bb_add_var_dup_with_prefetch w bb n v pf p_node).2 = bb.assign_var n w.next ∧
          (bb_add_var_dup_with_prefetch w bb n v pf p_node).1.vars w.next
            = { w.vars v with value_changed := false }) ∧
      HashMap.find (bb.assign_var n w.next).slots n = some w.next := by
  refine ⟨?_, ?_, ?_, ?_, ?_⟩
  · intro hpf ht obj hobj
    unfold bb_add_var_dup_with_prefetch
    simp [hpf, ht, hobj, BBVariable.duplicate, BBVariable.set_value, World.alloc]
  · intro hpf ht hobj hhas
    unfold bb_add_var_dup_with_prefetch
    simp [hpf, ht, hobj, hhas]
  · intro hpf ht hobj hhas
    unfold bb_add_var_dup_with_prefetch
    simp [hpf, ht, hobj, hhas, BBVariable.duplicate, BBVariable.set_value, World.alloc,
      World.err]
  · intro h
    have hc : (pf && decide ((w.vars v).type = 22)) = false := by
      rcases h with h | h
      · simp [h]
      · simp [h]
    unfold bb_add_var_dup_with_prefetch
    simp [hc, BBVariable.duplicate, World.alloc]
  · simp [Blackboard.assign_var, HashMap.find_insert_self]

/-- Instantiating `target` of `path_world`: resolved by `enemy_node`; left alone by
`lonely_node` in a store that has it; emptied by `lonely_node` in an empty
store; and duplicated as it is without prefetch. -/
theorem prefetch_cases_witness :
    ((bb_add_var_dup_with_prefetch path_world Blackboard.empty "target" 0 true
          (some enemy_node)).1.vars 2).value = Variant.object 7 ∧
      (bb_add_var_dup_with_prefetch path_world target_board "target" 0 true
          (some lonely_node)).2 = target_board ∧
      ((bb_add_var_dup_with_prefetch path_world Blackboard.empty "target" 0 true
          (some lonely_node)).1.vars 2).value = Variant.nil ∧
      ((bb_add_var_dup_with_prefetch path_world target_board "target" 0 false
          none).1.vars 2).value = Variant.node_path "Enemy" :=
  ⟨((prefetch_cases path_world Blackboard.empty "target" 0 true enemy_node none).1 rfl
      (by decide) 7 (by decide)).2.1,
    (prefetch_cases path_world target_board "target" 0 true lonely_node none).2.1 rfl
      (by decide) (by decide) (by decide),
    ((prefetch_cases path_world Blackboard.empty "target" 0 true lonely_node none).2.2.1 rfl
      (by decide) (by decide) (by decide)).2.1,
    (congrArg BBData.value
      ((prefetch_cases path_world target_board "target" 0 false lonely_node none).2.2.2.1
        (Or.inl rfl)).2).trans (by decide)⟩

theorem HashMap.has_eq_isSome {β : Type} (m : HashMap β) (k : StringName) :
    HashMap.has m k = (HashMap.find m k).isSome := by
  cases h : (HashMap.find m k).isSome with
  | true => exact (HashMap.has_iff_find m k).2 h
  | false =>
    rw [Bool.eq_false_iff]
    intro hc
    rw [(HashMap.has_iff_find m k).1 hc] at h
    exact Bool.noConfusion h

namespace Blackboard

theorem SameAt.refl (a : Blackboard) (n : StringName) : SameAt a a n := ⟨rfl, rfl, rfl⟩

theorem SameAt.trans {a b c : Blackboard} {n : StringName} (h1 : SameAt a b n)
    (h2 : SameAt b c n) : SameAt a c n :=
  ⟨h2.1.trans h1.1, h2.2.1.trans h1.2.1, h2.2.2.trans h1.2.2⟩

/-- Whether a store has a name depends on its parents and on its slot and link for
that name only. -/
theorem SameAt.has_var {a b : Blackboard} {n : StringName} (h : SameAt a b n) :
    b.has_var n = a.has_var n := by
  unfold Blackboard.has_var resolves
  simp only [h.1, h.2.2, HashMap.has_eq_isSome, h.2.1]

end Blackboard

namespace BlackboardPlan

end BlackboardPlan

namespace BlackboardPlan

end BlackboardPlan

/-- Under the representation invariant the list and the map have the same size. -/
theorem WellFormed.size_eq {p : BlackboardPlan} (h : WellFormed p) :
    HashMap.size p.var_map = p.var_list.length := by
  have h1 : p.var_list.Nodup := List.Nodup.of_map _ h.1
  have h2 : p.var_map.Nodup := List.Nodup.of_map _ h.2.1
  have hp : p.var_map.Perm p.var_list :=
    (List.perm_ext_iff_of_nodup h2 h1).2 (fun e => ⟨h.2.2.2.2 e, h.2.2.2.1 e⟩)
  exact hp.length_eq

theorem move_before_perm {α : Type} (l : List α) (a b : Nat) : (move_before l a b).Perm l := by
  unfold move_before
  cases h : l[a]? with
  | none => exact List.Perm.refl _
  | some x =>
    simp only
    have ha : a < l.length := by
      by_contra hc
      rw [List.getElem?_eq_none (Nat.le_of_not_lt hc)] at h
      exact Option.noConfusion h
    have hx : l[a] = x := by
      rw [List.getElem?_eq_getElem ha] at h
      exact Option.some.inj h
    have h1 : (x :: l.eraseIdx a).Perm l := by
      have hl : l = l.take a ++ x :: l.drop (a + 1) := by
        rw [← hx, ← List.drop_eq_getElem_cons ha, List.take_append_drop]
      have he : l.eraseIdx a = l.take a ++ l.drop (a + 1) := by
        rw [List.eraseIdx_eq_take_drop_succ]
      rw [he]
      conv_rhs => rw [hl]
      exact List.perm_middle.symm
    refine List.Perm.trans ?_ h1
    refine List.perm_middle.trans ?_
    rw [List.take_append_drop]

/-- The reordering loop only rearranges the local list. -/
theorem sync_order_perm (bl : List (StringName × BBVariable)) :
    ∀ l : List (StringName × BBVariable), (sync_order bl l).Perm l := by
  induction bl with
  | nil => intro l; exact List.Perm.refl _
  | cons b bs ih =>
    intro l
    cases l with
    | nil => exact List.Perm.refl _
    | cons e es =>
      unfold sync_order
      by_cases he : e.1 = b.1
      · simp only [ne_eq, he, not_true_eq_false, if_false]
        exact List.Perm.cons e (ih es)
      · simp only [ne_eq, he, not_false_eq_true, if_true]
        cases ht : take_named b.1 es with
        | none => exact List.Perm.cons e (ih es)
        | some r =>
          obtain ⟨f, rest⟩ := r
          simp only
          have hp : es.Perm (f :: rest) := by
            clear ih
            induction es generalizing f rest with
            | nil => simp [take_named] at ht
            | cons c cs ihc =>
              unfold take_named at ht
              by_cases hc : c.1 = b.1
              · simp only [hc, if_true, Option.some.injEq, Prod.mk.injEq] at ht
                rw [← ht.1, ← ht.2]
              · simp only [hc, if_false] at ht
                cases hr : take_named b.1 cs with
                | none => rw [hr] at ht; exact Option.noConfusion ht
                | some r' =>
                  obtain ⟨f', rest'⟩ := r'
                  rw [hr] at ht
                  simp only [Option.some.injEq, Prod.mk.injEq] at ht
                  rw [← ht.1, ← ht.2]
                  exact (List.Perm.cons c (ihc f' rest' hr)).trans (List.Perm.swap f' c rest')
          exact (List.Perm.cons f (ih (e :: rest))).trans
            ((List.Perm.swap e f rest).trans (List.Perm.cons e hp.symm))

namespace BlackboardPlan

/-- The state after a successful `rename_var` on a well-formed plan. -/
theorem rename_var_result (w : World) (self : Nat) (old new : StringName)
    (hw : WellFormed (w.plans self)) (hold : HashMap.has (w.plans self).var_map old = true)
    (hne : old ≠ new) (hvalid : is_valid_var_name w self new = true) :
    rename_var w self old new
      = w.setPlan self { w.plans self with
          var_list := (w.plans self).var_list.map (fun e => if e.1 = old then (new, e.2) else e)
          var_map := HashMap.erase (w.plans self).var_map old ++ [(new, var_of w self old)]
          parent_scope_mapping :=
            match HashMap.find (w.plans self).parent_scope_mapping old with
            | some t =>
              HashMap.erase (HashMap.insert (w.plans self).parent_scope_mapping new t) old
            | none => (w.plans self).parent_scope_mapping } := by
  obtain ⟨_, _, hnew⟩ := is_valid_var_name_spec hvalid
  have hfs := find_set_spec w old new (var_of w self old) _ hw.1 (hw.mem_var_of hold)
  have hnew' : HashMap.has (HashMap.erase (w.plans self).var_map old) new = false := by
    rw [HashMap.has_eq_false_iff]
    intro hc
    obtain ⟨e, he, hen⟩ := List.mem_map.1 hc
    have hm := (HashMap.mem_erase.1 he).1
    have := HashMap.has_of_mem (show (e.1, e.2) ∈ (w.plans self).var_map from hm)
    rw [hen, hnew] at this
    exact Bool.noConfusion this
  unfold rename_var
  simp only [hne, if_false, hvalid, Bool.not_true, Bool.false_eq_true, hold, hnew, hfs,
    HashMap.insert_of_not_has _ hnew']

/-- A successful `rename_var` keeps the representation invariant. -/
theorem rename_var_wf (w : World) (self : Nat) (old new : StringName)
    (hw : WellFormed (w.plans self)) (hold : HashMap.has (w.plans self).var_map old = true)
    (hne : old ≠ new) (hvalid : is_valid_var_name w self new = true) :
    WellFormed ((rename_var w self old new).plans self) := by
  obtain ⟨_, hid, hnew⟩ := is_valid_var_name_spec hvalid
  rw [rename_var_result w self old new hw hold hne hvalid, World.setPlan_plans_self]
  have hov := hw.mem_var_of hold
  have hnewl : new ∉ (w.plans self).var_list.map Prod.fst := by
    intro hc
    have := (hw.has_iff new).2 hc
    rw [hnew] at this
    exact Bool.noConfusion this
  obtain ⟨a, b, c, d, e⟩ := hw
  refine ⟨?_, ?_, ?_, ?_, ?_⟩
  · have hmap : ((w.plans self).var_list.map (fun e => if e.1 = old then (new, e.2) else e)).map
        Prod.fst
        = ((w.plans self).var_list.map Prod.fst).map (fun n => if n = old then new else n) := by
      rw [List.map_map, List.map_map]
      apply List.map_congr_left
      intro x _
      by_cases hx : x.1 = old <;> simp [hx]
    show (((w.plans self).var_list.map (fun e => if e.1 = old then (new, e.2) else e)).map
      Prod.fst).Nodup
    rw [hmap]
    apply List.Nodup.map_on _ a
    intro x hx y hy hxy
    by_cases h1 : x = old <;> by_cases h2 : y = old
    · rw [h1, h2]
    · simp only [h1, if_true, h2, if_false] at hxy
      exact absurd (hxy ▸ hy) hnewl
    · simp only [h1, if_false, h2, if_true] at hxy
      exact absurd (hxy ▸ hx) hnewl
    · simpa [h1, h2] using hxy
  · show ((HashMap.erase (w.plans self).var_map old ++ [(new, var_of w self old)]).map
      Prod.fst).Nodup
    rw [List.map_append, List.nodup_append]
    refine ⟨b.sublist ((List.filter_sublist _).map _), List.nodup_singleton _, ?_⟩
    intro x hx hx'
    simp only [List.map_cons, List.map_nil, List.mem_singleton] at hx'
    obtain ⟨y, hy, hyx⟩ := List.mem_map.1 hx
    have hm := (HashMap.mem_erase.1 hy).1
    apply hnewl
    rw [← hx', ← hyx]
    exact List.mem_map.2 ⟨y, e y hm, rfl⟩
  · intro x hx
    obtain ⟨y, hy, hyx⟩ := List.mem_map.1 hx
    by_cases h1 : y.1 = old
    · rw [if_pos h1] at hyx
      rw [← hyx]
      exact is_valid_identifier_ne_empty hid
    · rw [if_neg h1] at hyx
      rw [← hyx]
      exact c y hy
  · intro x hx
    obtain ⟨y, hy, hyx⟩ := List.mem_map.1 hx
    by_cases h1 : y.1 = old
    · rw [if_pos h1] at hyx
      have hyo : y = (old, var_of w self old) := entry_unique a hy hov h1
      rw [← hyx, hyo]
      exact List.mem_append_right _ (List.mem_singleton_self _)
    · rw [if_neg h1] at hyx
      rw [← hyx]
      exact List.mem_append_left _ (HashMap.mem_erase.2 ⟨d y hy, h1⟩)
  · intro x hx
    rcases List.mem_append.1 hx with hx | hx
    · obtain ⟨hm, h1⟩ := HashMap.mem_erase.1 hx
      exact List.mem_map.2 ⟨x, e x hm, by rw [if_neg h1]⟩
    · rw [List.mem_singleton] at hx
      rw [hx]
      exact List.mem_map.2 ⟨(old, var_of w self old), hov, by simp⟩

/-- The first loop of `sync_with_base_plan` over base entries with non-empty names
keeps the representation invariant, declares every name it has processed,
writes no other plan and reports no error. -/
theorem sync_fold_wf (w : World) (self : Nat) (hw : WellFormed (w.plans self))
    (l : List (StringName × BBVariable)) (hl : ∀ f ∈ l, f.1 ≠ "") :
    WellFormed ((l.foldl (sync_var self) w).plans self) ∧
      (∀ k, k ≠ self → (l.foldl (sync_var self) w).plans k = w.plans k) ∧
      (l.foldl (sync_var self) w).errors = w.errors ∧
      (l.foldl (sync_var self) w).crashed = w.crashed ∧
      ∀ f ∈ l, HashMap.has ((l.foldl (sync_var self) w).plans self).var_map f.1 = true := by
  refine foldl_invariant (sync_var self)
    (fun pre s => WellFormed (s.plans self) ∧ (∀ k, k ≠ self → s.plans k = w.plans k) ∧
      s.errors = w.errors ∧ s.crashed = w.crashed ∧
      ∀ f ∈ pre, HashMap.has (s.plans self).var_map f.1 = true)
    l w ⟨hw, fun _ _ => rfl, rfl, rfl, by simp⟩ ?_
  intro pre x post s hlx hI
  obtain ⟨h1, h2, h3, h4, h5⟩ := hI
  have hx : x ∈ l := by rw [hlx]; exact List.mem_append_right _ (List.mem_cons_self _ _)
  cases hh : HashMap.has (s.plans self).var_map x.1 with
  | true =>
    rw [sync_var_of_has self s x hh]
    refine ⟨h1, h2, h3, h4, ?_⟩
    intro f hf
    rcases List.mem_append.1 hf with hf | hf
    · exact h5 f hf
    · rw [List.mem_singleton] at hf
      rw [hf]; exact hh
  | false =>
    rw [sync_var_of_not_has self s x hh (hl x hx)]
    refine ⟨?_, ?_, h3, h4, ?_⟩
    · rw [World.setPlan_plans_self]
      exact h1.append _ (hl x hx) hh
    · intro k hk
      rw [World.setPlan_plans_other _ _ hk]
      exact h2 k hk
    · intro f hf
      rw [World.setPlan_plans_self, HashMap.has_eq_true_iff]
      simp only [List.map_append, List.mem_append]
      rcases List.mem_append.1 hf with hf | hf
      · exact Or.inl ((HashMap.has_eq_true_iff _ _).1 (h5 f hf))
      · rw [List.mem_singleton] at hf
        rw [hf]
        exact Or.inr (by simp)

end BlackboardPlan

/-- When the local names are a rearrangement of the base names, the reordering loop
finds its element at every position. -/
theorem reorder_finds_of_perm (bl : List (StringName × BBVariable)) :
    ∀ l : List (StringName × BBVariable), (l.map Prod.fst).Perm (bl.map Prod.fst) →
      reorder_finds bl l = true := by
  induction bl with
  | nil =>
    intro l hp
    have : l = [] := by
      have := hp.length_eq
      simpa using this
    subst this
    rfl
  | cons b bs ih =>
    intro l hp
    cases l with
    | nil => rfl
    | cons e es =>
      by_cases he : e.1 = b.1
      · have hp' : (es.map Prod.fst).Perm (bs.map Prod.fst) := by
          rw [List.map_cons, List.map_cons, he] at hp
          exact hp.cons_inv
        simp only [reorder_finds, ne_eq, he, not_true_eq_false, if_false, ih es hp']
      · have hb : b.1 ∈ es.map Prod.fst := by
          have : b.1 ∈ (e :: es).map Prod.fst := hp.symm.subset (by simp)
          rw [List.map_cons, List.mem_cons] at this
          rcases this with h | h
          · exact absurd h.symm he
          · exact h
        obtain ⟨f, rest, hf, hfn, hpr⟩ := take_named_of_mem b.1 es hb
        have hp' : ((e :: rest).map Prod.fst).Perm (bs.map Prod.fst) := by
          have h1 : ((e :: es).map Prod.fst).Perm ((f :: e :: rest).map Prod.fst) :=
            ((List.Perm.cons e hpr).trans (List.Perm.swap f e rest)).map _
          have h2 := h1.symm.trans hp
          simp only [List.map_cons, hfn] at h2
          simp only [List.map_cons]
          exact h2.cons_inv
        simp only [reorder_finds, ne_eq, he, not_false_eq_true, if_true, hf, ih _ hp']

namespace BlackboardPlan

/-- The removal loop of `sync_with_base_plan` on a well-formed plan restricts the
list and the map to the names the base has. -/
theorem erase_step (w : World) (self b : Nat) (hw : WellFormed (w.plans self)) :
    (erase_list w self b).foldl (fun s n => remove_var s self n) w
      = w.setPlan self { w.plans self with
          var_list := (w.plans self).var_list.filter (fun e => has_var w b e.1)
          var_map := (w.plans self).var_map.filter (fun e => has_var w b e.1) } := by
  have hel_nodup : (erase_list w self b).Nodup :=
    hw.1.sublist ((List.filter_sublist _).map _)
  have hel_has : ∀ n ∈ erase_list w self b, HashMap.has (w.plans self).var_map n = true := by
    intro n hn
    obtain ⟨e, he, rfl⟩ := List.mem_map.1 hn
    exact (hw.has_iff e.1).2 (List.mem_map.2 ⟨e, (List.mem_filter.1 he).1, rfl⟩)
  have hkeep : ∀ n : StringName, n ∈ (w.plans self).var_list.map Prod.fst →
      (decide (n ∉ erase_list w self b) = has_var w b n) := by
    intro n hn
    cases hv : has_var w b n with
    | true =>
      simp only [decide_eq_true_eq]
      intro hc
      obtain ⟨e, he, hen⟩ := List.mem_map.1 hc
      have := (List.mem_filter.1 he).2
      rw [hen, hv] at this
      exact Bool.noConfusion this
    | false =>
      simp only [decide_eq_false_iff_not, not_not]
      obtain ⟨e, he, rfl⟩ := List.mem_map.1 hn
      exact List.mem_map.2 ⟨e, List.mem_filter.2 ⟨he, by simp [hv]⟩, rfl⟩
  have hfl : (w.plans self).var_list.filter (fun e => decide (e.1 ∉ erase_list w self b))
      = (w.plans self).var_list.filter (fun e => has_var w b e.1) := by
    apply List.filter_congr
    intro e he
    exact hkeep e.1 (List.mem_map.2 ⟨e, he, rfl⟩)
  have hfm : (w.plans self).var_map.filter (fun e => decide (e.1 ∉ erase_list w self b))
      = (w.plans self).var_map.filter (fun e => has_var w b e.1) := by
    apply List.filter_congr
    intro e he
    exact hkeep e.1 (List.mem_map.2 ⟨e, hw.2.2.2.2 e he, rfl⟩)
  rw [remove_loop self (erase_list w self b) w hw hel_nodup hel_has, hfl, hfm]

/-- The state at the count check of `sync_with_base_plan` on a well-formed plan:
the plan is well-formed, no other plan was written, no error was reported. -/
theorem sync_add_erase_wf (w : World) (self b : Nat) (hw : WellFormed (w.plans self))
    (hb : ∀ f ∈ (w.plans b).var_list, f.1 ≠ "") :
    WellFormed ((sync_add_erase w self b).plans self) ∧
      (∀ k, k ≠ self → (sync_add_erase w self b).plans k = w.plans k) ∧
      (sync_add_erase w self b).errors = w.errors ∧
      (sync_add_erase w self b).crashed = w.crashed := by
  obtain ⟨h1, h2, h3, h4, _⟩ := sync_fold_wf w self hw (w.plans b).var_list hb
  unfold sync_add_erase
  simp only
  rw [erase_step _ self b h1]
  refine ⟨?_, ?_, h3, h4⟩
  · rw [World.setPlan_plans_self]
    exact h1.filter _
  · intro k hk
    rw [World.setPlan_plans_other _ _ hk]
    exact h2 k hk

/-- What `sync_with_base_plan` does with the state at the count check. -/
theorem sync_eq_of_base (w : World) (self b : Nat) (hbase : (w.plans self).base = some b) :
    sync_with_base_plan w self
      = if ((sync_add_erase w self b).plans b).var_list.length
            ≠ ((sync_add_erase w self b).plans self).var_list.length then
          (sync_add_erase w self b).err
        else
          (sync_add_erase w self b).setPlan self { (sync_add_erase w self b).plans self with
            var_list := sync_order ((sync_add_erase w self b).plans b).var_list
              ((sync_add_erase w self b).plans self).var_list } := by
  unfold sync_with_base_plan sync_add_erase
  simp only [hbase]

end BlackboardPlan

namespace BlackboardPlan

/-- C21: the representation invariant of a plan (names of `var_list` pairwise
distinct and non-empty, the same entries in `var_list` and `var_map`, hence
the same size) is kept by every call of `add_var`, `remove_var`,
`rename_var`, `move_var` and, when the base satisfies the invariant, of
`sync_with_base_plan`, whether the call succeeds or fails. -/
theorem invariant_preserved (w : World) (self : Nat) (hw : WellFormed (w.plans self)) :
    (∀ n v, WellFormed ((add_var w self n v).plans self)) ∧
      (∀ n, WellFormed ((remove_var w self n).plans self)) ∧
      (∀ old new, WellFormed ((rename_var w self old new).plans self)) ∧
      (∀ i j, WellFormed ((move_var w self i j).plans self)) ∧
      ((∀ b, (w.plans self).base = some b → WellFormed (w.plans b)) →
        WellFormed ((sync_with_base_plan w self).plans self)) ∧
      HashMap.size (w.plans self).var_map = (w.plans self).var_list.length := by
  refine ⟨?_, ?_, ?_, ?_, ?_, hw.size_eq⟩
  · intro n v
    by_cases hn : n = ""
    · unfold add_var
      simp only [hn, if_true]; exact hw
    · cases hh : HashMap.has (w.plans self).var_map n with
      | true =>
        unfold add_var
        simp only [hn, hh, if_false, if_true]; exact hw
      | false =>
        unfold add_var
        simp only [hn, hh, if_false, Bool.false_eq_true, World.setPlan_plans_self,
          HashMap.insert_of_not_has _ hh]
        exact hw.append v hn hh
  · intro n
    cases hh : HashMap.has (w.plans self).var_map n with
    | false =>
      unfold remove_var
      simp only [hh, Bool.not_false, if_true]
      exact hw
    | true =>
      rw [remove_var_of_has w self n hw hh, World.setPlan_plans_self]
      exact hw.filter (fun x => x != n)
  · intro old new
    by_cases hne : old = new
    · unfold rename_var
      simp only [hne, if_true]
      exact hw
    · cases hv : is_valid_var_name w self new with
      | false =>
        unfold rename_var
        simp only [hne, if_false, hv, Bool.not_false, if_true]
        exact hw
      | true =>
        cases ho : HashMap.has (w.plans self).var_map old with
        | false =>
          unfold rename_var
          simp only [hne, if_false, hv, Bool.not_true, Bool.false_eq_true, ho, Bool.not_false,
            if_true]
          exact hw
        | true => exact rename_var_wf w self old new hw ho hne hv
  · intro i j
    unfold move_var
    simp only
    split
    · exact hw
    · split
      · exact hw
      · split
        · exact hw
        · split
          · exact hw
          · rw [World.setPlan_plans_self]
            apply WellFormed.of_perm hw
            split
            · exact (move_before_perm _ _ _).trans (move_before_perm _ _ _)
            · exact move_before_perm _ _ _
  · intro hb
    cases hbase : (w.plans self).base with
    | none =>
      unfold sync_with_base_plan
      simp only [hbase]
      exact hw
    | some b =>
      obtain ⟨h1, _, _, _⟩ := sync_add_erase_wf w self b hw (hb b hbase).2.2.1
      rw [sync_eq_of_base w self b hbase]
      split
      · exact h1
      · rw [World.setPlan_plans_self]
        exact WellFormed.of_perm h1 (sync_order_perm _ _)

/-- Calls on the out-of-step derived plan of `stale_world`, successful and failing,
leave a well-formed plan. -/
theorem invariant_preserved_witness :
    WellFormed (stale_world.plans 0) ∧
      WellFormed ((add_var stale_world 0 "mana" 7).plans 0) ∧
      WellFormed ((remove_var stale_world 0 "ghost").plans 0) ∧
      WellFormed ((rename_var stale_world 0 "speed" "pace").plans 0) ∧
      WellFormed ((move_var stale_world 0 0 2).plans 0) ∧
      WellFormed ((sync_with_base_plan stale_world 0).plans 0) :=
  ⟨by decide,
    (invariant_preserved stale_world 0 (by decide)).1 "mana" 7,
    (invariant_preserved stale_world 0 (by decide)).2.1 "ghost",
    (invariant_preserved stale_world 0 (by decide)).2.2.1 "speed" "pace",
    (invariant_preserved stale_world 0 (by decide)).2.2.2.1 0 2,
    (invariant_preserved stale_world 0 (by decide)).2.2.2.2.1 (by
      intro b hb
      have : b = 1 := by
        have h : (stale_world.plans 0).base = some 1 := by decide
        rw [h] at hb
        exact (Option.some.inj hb).symm
      subst this
      decide)⟩

/-- C23: the structural-mismatch failure of `sync_with_base_plan` is unreachable.
For a derived plan and a base that are distinct plans and satisfy the
representation invariant, the local and base lists have the same length
after the add-missing and erase-extra loops, so the count check passes; the
reordering loop finds each base name at or after the current position and
never runs past the end of the base list; the call reports no error, does
not crash, and leaves the plan listing the base's names in the base's
order. -/
theorem count_check_passes (w : World) (self b : Nat) (hbase : (w.plans self).base = some b)
    (hne : self ≠ b) (hw : WellFormed (w.plans self)) (hb : WellFormed (w.plans b)) :
    ((sync_add_erase w self b).plans b).var_list.length
        = ((sync_add_erase w self b).plans self).var_list.length ∧
      reorder_finds ((sync_add_erase w self b).plans b).var_list
        ((sync_add_erase w self b).plans self).var_list = true ∧
      sync_with_base_plan w self
        = (sync_add_erase w self b).setPlan self { (sync_add_erase w self b).plans self with
            var_list := sync_order ((sync_add_erase w self b).plans b).var_list
              ((sync_add_erase w self b).plans self).var_list } ∧
      (sync_with_base_plan w self).errors = w.errors ∧
      (sync_with_base_plan w self).crashed = w.crashed ∧
      list_vars (sync_with_base_plan w self) self = list_vars w b := by
  obtain ⟨f1, f2, _, _, f5⟩ := sync_fold_wf w self hw (w.plans b).var_list hb.2.2.1
  obtain ⟨s1, s2, s3, s4⟩ := sync_add_erase_wf w self b hw hb.2.2.1
  have hsb : (sync_add_erase w self b).plans b = w.plans b := s2 b (Ne.symm hne)
  have hfb : ((w.plans b).var_list.foldl (sync_var self) w).plans b = w.plans b :=
    f2 b (Ne.symm hne)
  have hlist : ((sync_add_erase w self b).plans self).var_list
      = (((w.plans b).var_list.foldl (sync_var self) w).plans self).var_list.filter
          (fun e => has_var ((w.plans b).var_list.foldl (sync_var self) w) b e.1) := by
    unfold sync_add_erase
    simp only
    rw [erase_step _ self b f1, World.setPlan_plans_self]
  have hperm : (((sync_add_erase w self b).plans self).var_list.map Prod.fst).Perm
      ((w.plans b).var_list.map Prod.fst) := by
    rw [List.perm_ext_iff_of_nodup s1.1 hb.1, hlist]
    intro n
    constructor
    · intro hn
      obtain ⟨e, he, rfl⟩ := List.mem_map.1 hn
      have := (List.mem_filter.1 he).2
      unfold has_var at this
      rw [hfb] at this
      exact (hb.has_iff e.1).1 this
    · intro hn
      obtain ⟨f, hf, rfl⟩ := List.mem_map.1 hn
      have hp := (f1.has_iff f.1).1 (f5 f hf)
      obtain ⟨e, he, hef⟩ := List.mem_map.1 hp
      refine List.mem_map.2 ⟨e, List.mem_filter.2 ⟨he, ?_⟩, hef⟩
      unfold has_var
      rw [hfb, hef]
      exact (hb.has_iff f.1).2 hn
  have hlen : ((sync_add_erase w self b).plans b).var_list.length
      = ((sync_add_erase w self b).plans self).var_list.length := by
    have := hperm.length_eq
    simp only [List.length_map] at this
    rw [hsb]
    exact this.symm
  have hres : sync_with_base_plan w self
      = (sync_add_erase w self b).setPlan self { (sync_add_erase w self b).plans self with
          var_list := sync_order ((sync_add_erase w self b).plans b).var_list
            ((sync_add_erase w self b).plans self).var_list } := by
    rw [sync_eq_of_base w self b hbase, if_neg (by simp [hlen])]
  refine ⟨hlen, ?_, hres, ?_, ?_, ?_⟩
  · rw [hsb]
    exact reorder_finds_of_perm _ _ hperm
  · rw [hres]; exact s3
  · rw [hres]; exact s4
  · rw [hres]
    unfold list_vars
    rw [World.setPlan_plans_self, hsb]
    exact (sync_order_spec _ _ hperm).1

/-- On the out-of-step derived plan of `stale_world` the lists have three entries
each at the count check and the call reports no error. -/
theorem count_check_passes_witness :
    (WellFormed (stale_world.plans 0) ∧ WellFormed (stale_world.plans 1)) ∧
      ((sync_add_erase stale_world 0 1).plans 0).var_list.length = 3 ∧
      (sync_with_base_plan stale_world 0).errors = 0 :=
  ⟨by decide,
    ((count_check_passes stale_world 0 1 (by decide) (by decide) (by decide)
      (by decide)).1.symm).trans (by decide),
    (count_check_passes stale_world 0 1 (by decide) (by decide) (by decide)
      (by decide)).2.2.2.1⟩

end BlackboardPlan

namespace BlackboardPlan

/-- C22 at a failing input: `ghost` is not declared in the well-formed derived plan
of `stale_world`.  Setting `var/ghost/value` (and likewise `/type`, `/hint`,
`/hint_string`) reports success and makes `ghost` a key of `var_map` without
listing it, so the plan no longer satisfies the representation invariant and
`get_var_by_index` accepts the index 3 of a list of 3 entries and runs off
the list; the sub-path `var/ghost/name` declares and lists the name. -/
theorem set_storage_undeclared_unlisted :
    WellFormed (stale_world.plans 0) ∧ has_var stale_world 0 "ghost" = false ∧
      (_set stale_world 0 "var/ghost/value" (Variant.int 1)).1 = true ∧
      has_var (_set stale_world 0 "var/ghost/value" (Variant.int 1)).2 0 "ghost" = true ∧
      "ghost" ∉ list_vars (_set stale_world 0 "var/ghost/value" (Variant.int 1)).2 0 ∧
      ¬ WellFormed ((_set stale_world 0 "var/ghost/value" (Variant.int 1)).2.plans 0) ∧
      (has_var (_set stale_world 0 "var/ghost/type" (Variant.int 2)).2 0 "ghost" = true ∧
        "ghost" ∉ list_vars (_set stale_world 0 "var/ghost/type" (Variant.int 2)).2 0) ∧
      (has_var (_set stale_world 0 "var/ghost/hint" (Variant.int 0)).2 0 "ghost" = true ∧
        "ghost" ∉ list_vars (_set stale_world 0 "var/ghost/hint" (Variant.int 0)).2 0) ∧
      (has_var (_set stale_world 0 "var/ghost/hint_string" (Variant.string "")).2 0 "ghost"
          = true ∧
        "ghost" ∉
          list_vars (_set stale_world 0 "var/ghost/hint_string" (Variant.string "")).2 0) ∧
      (get_var_by_index (_set stale_world 0 "var/ghost/value" (Variant.int 1)).2 0 3).1.crashed
        = true ∧
      (has_var (_set stale_world 0 "var/ghost/name" (Variant.string "ghost")).2 0 "ghost" = true ∧
        "ghost" ∈ list_vars (_set stale_world 0 "var/ghost/name" (Variant.string "ghost")).2 0) := by
  decide

/-- C24 at a failing input: in `derived_path_world` the derived plan 0 reports the
prefetch setting of its base, which is on, while its own flag is off.
Instantiating it with a node that resolves `Enemy` leaves the stored path in
the slot: no resolution is attempted.  Its base, whose flag is on, gets the
resolved object. -/
theorem reported_prefetch_not_used :
    DerivedFrom derived_path_world 0 1 ∧
      is_prefetching_nodepath_vars 2 derived_path_world 0 = some true ∧
      (derived_path_world.vars 1).type = 22 ∧
      enemy_node (derived_path_world.vars 1).value = some 7 ∧
      (create_blackboard derived_path_world 0 (some enemy_node) none).2.slots = [("target", 2)] ∧
      ((create_blackboard derived_path_world 0 (some enemy_node) none).1.vars 2).value
        = Variant.node_path "Enemy" ∧
      ((populate_blackboard derived_path_world 0 Blackboard.empty true
        (some enemy_node)).1.vars 2).value = Variant.node_path "Enemy" ∧
      is_prefetching_nodepath_vars 2 derived_path_world 1 = some true ∧
      ((create_blackboard derived_path_world 1 (some enemy_node) none).1.vars 2).value
        = Variant.object 7 := by
  decide

end BlackboardPlan

namespace BlackboardPlan

end BlackboardPlan

namespace BlackboardPlan

end BlackboardPlan

namespace BlackboardPlan

end BlackboardPlan

namespace BlackboardPlan

end BlackboardPlan

namespace BlackboardPlan

end BlackboardPlan

end LimboAI
